import Mathlib

/-!
Verification development for the streaming tick-to-OHLCV bar engine
(`src/main.py` of `polars-tick-engine`).

Modelling conventions (shallow embedding):

* A UTC instant (`datetime` with microsecond precision, as used by both
  `datetime` and polars `Datetime("us", "UTC")`) is modelled as the exact
  integer number of microseconds since the Unix epoch (`Int`).
* A float64 price is modelled as an exact rational (`Rat`).  The engine never
  performs arithmetic on prices — bars only select (`first`/`last`) and
  compare (`max`/`min`) them — so the order-embedding of the finitely many
  float values into `ℚ` is exact.
* `DataFrame`s of canonical ticks are modelled as `List Tick`; polars `sort`
  is modelled as a stable sort (`List.insertionSort`); `filter`, `concat`
  (`vertical`), `unique(keep="last")` are modelled by the corresponding list
  operations.
* Python `//` on `int` is floor division, modelled by `Int` `/` (`Int.ediv`,
  which floors for positive divisors); Python `int()` applied to a
  (possibly negative) fractional number of seconds truncates toward zero,
  modelled by `Int.tdiv` on the microsecond count.
* Fallible code (`rule_to_seconds` raising `ValueError`) is modelled with
  `Except String`.
-/

/-- One canonical tick: `datetime` in microseconds since the Unix epoch (UTC),
and the float `mid` price modelled as an exact rational. -/
structure Tick where
  dt : Int
  mid : Rat
deriving DecidableEq, Repr

/-- Timestamp order on ticks (the `sort("datetime")` key). -/
def tickLE (a b : Tick) : Prop := a.dt ≤ b.dt

instance : DecidableRel tickLE := fun a b => inferInstanceAs (Decidable (a.dt ≤ b.dt))

instance : IsTotal Tick tickLE := ⟨fun a b => Int.le_total a.dt b.dt⟩

instance : IsTrans Tick tickLE := ⟨fun _ _ _ h h' => le_trans h h'⟩

/-- Model of polars `DataFrame.sort("datetime")` on canonical ticks
(stable sort by timestamp). -/
def sortTicks (l : List Tick) : List Tick := List.insertionSort tickLE l

/-- Microseconds per second. -/
def usPerSec : Int := 1000000

/-- Window length of a `sec`-second rule, in microseconds. -/
def winUs (sec : Int) : Int := sec * usPerSec

/-- Left-closed, left-labeled fixed window start used by polars
`group_by_dynamic(every=period=f"{sec}s", closed="left", label="left")`:
the timestamp truncated down to a multiple of the window length
(windows are aligned to the Unix epoch). -/
def window_start (sec : Int) (t : Int) : Int := (t / winUs sec) * winUs sec

/-- Model of `floor_dt_to_seconds(dt, sec)` (src/main.py:150-153), result in
microseconds: `ts = dt.timestamp()` gives the exact fractional epoch seconds,
`int(ts)` truncates toward zero (`Int.tdiv` on microseconds), `// sec` floors
(`Int.ediv`), `* sec` and `fromtimestamp` rebuild the instant. -/
def floor_dt_to_seconds (dt : Int) (sec : Int) : Int :=
  (((dt.tdiv usPerSec) / sec) * sec) * usPerSec

/-- One OHLCV bar row (`opn` stands for the `open` column, which is a Lean
keyword): `ws` is the left window label (`datetime` column) in microseconds. -/
structure Bar where
  ws : Int
  opn : Rat
  high : Rat
  low : Rat
  close : Rat
  volume : Int
deriving DecidableEq, Repr

/-- Window-label order on bars (the `sort("datetime")` key of bar frames). -/
def barLE (a b : Bar) : Prop := a.ws ≤ b.ws

instance : DecidableRel barLE := fun a b => inferInstanceAs (Decidable (a.ws ≤ b.ws))

instance : IsTotal Bar barLE := ⟨fun a b => Int.le_total a.ws b.ws⟩

instance : IsTrans Bar barLE := ⟨fun _ _ _ h h' => le_trans h h'⟩

/-- Model of polars `sort("datetime")` on bar rows. -/
def sortBars (l : List Bar) : List Bar := List.insertionSort barLE l

/-- Binary maximum on prices (a computable spelling of `max` on `ℚ`). -/
def qmax (a b : Rat) : Rat := if a ≤ b then b else a

/-- Binary minimum on prices (a computable spelling of `min` on `ℚ`). -/
def qmin (a b : Rat) : Rat := if b ≤ a then b else a

/-- The aggregation of one non-empty window group `h :: t` (rows in frame
order), as performed in `bars_from_ticks` (src/main.py:119-125):
`open = mid.first()`, `high = mid.max()`, `low = mid.min()`,
`close = mid.last()`, `volume = len()`. -/
def barOfGroup (w : Int) (h : Tick) (t : List Tick) : Bar :=
  { ws := w
    opn := h.mid
    high := t.foldl (fun a u => qmax a u.mid) h.mid
    low := t.foldl (fun a u => qmin a u.mid) h.mid
    close := (t.getLastD h).mid
    volume := (t.length : Int) + 1 }

/-- Fueled worker for `bars_rec` (the fuel, instantiated with the list
length, only makes the recursion structural so that it computes). -/
def bars_go (sec : Int) : Nat → List Tick → List Bar
  | _, [] => []
  | 0, _ :: _ => []
  | fuel + 1, h :: t =>
    let w := window_start sec h.dt
    barOfGroup w h (t.takeWhile (fun u => window_start sec u.dt == w)) ::
      bars_go sec fuel (t.dropWhile (fun u => window_start sec u.dt == w))

/-- Grouping step of `group_by_dynamic` on a (sorted, as polars requires)
tick frame: consecutive runs of equal window start become one group each,
in frame order. -/
def bars_rec (sec : Int) (ticks : List Tick) : List Bar :=
  bars_go sec ticks.length ticks

/-- Model of `bars_from_ticks(ticks, rule)` (src/main.py:110-128) on the rows:
`group_by_dynamic` over left-closed left-labeled `sec`-second windows, the
OHLCV aggregation, and the final `.sort("datetime")`.  The `drop_nulls` step
is the identity here because every modelled tick has a non-null timestamp and
price, so every emitted group aggregate is non-null. -/
def bars_from_ticks (sec : Int) (ticks : List Tick) : List Bar :=
  sortBars (bars_rec sec ticks)

/-- Per-granularity running state of `loop_through_files`: the rolling
`buffers[r]` and the accumulated list of finalized bar frames `bars_out[r]`. -/
structure GState where
  buffer : List Tick
  out : List (List Bar)
deriving DecidableEq, Repr

/-- One iteration of the per-rule body of the batch loop
(src/main.py:39-58) for a single granularity: concat buffer and batch, sort,
take the max timestamp (`None` only if the frame is empty), cut at
`floor_dt_to_seconds(last_dt, sec)`, reduce the finalized part and append the
resulting frame if non-empty, keep the rest. -/
def ingest (sec : Int) (st : GState) (ticks : List Tick) : GState :=
  let combined := List.insertionSort tickLE (st.buffer ++ ticks)
  match (combined.map Tick.dt).max? with
  | none => { st with buffer := combined }
  | some lastDt =>
    let cutoff := floor_dt_to_seconds lastDt sec
    let toFinalize := combined.filter (fun t => t.dt < cutoff)
    let toKeep := combined.filter (fun t => cutoff ≤ t.dt)
    let b := bars_from_ticks sec toFinalize
    { buffer := toKeep
      out := if toFinalize.isEmpty then st.out
             else if b.isEmpty then st.out else st.out ++ [b] }

/-- Model of `loop_through_files` (src/main.py:28-65) for one granularity:
each raw batch is sanitized — for canonical ticks this is the final
`sort("datetime")` of `clean_tick_batch` — empty sanitized batches are
skipped, non-empty ones are ingested; at end of input the remaining buffer is
reduced unconditionally and appended if it yields any bars.  (The per-rule
states of the source are independent, so the multi-rule loop is modelled one
granularity at a time.) -/
def loop_through_files (sec : Int) (batches : List (List Tick)) : GState :=
  let final := batches.foldl
    (fun st b =>
      let ticks := sortTicks b
      if ticks.isEmpty then st else ingest sec st ticks)
    ⟨[], []⟩
  if final.buffer.isEmpty then final
  else
    let b := bars_from_ticks sec final.buffer
    if b.isEmpty then final else { final with out := final.out ++ [b] }

/-- Model of polars `unique(subset=["datetime"], keep="last")` on bar rows:
keep, for every `datetime` key, the last row carrying it, in the relative
order of those kept rows. -/
def dedupKeepLast (l : List Bar) : List Bar :=
  l.foldr (fun b acc => if acc.any (fun c => c.ws == b.ws) then acc else b :: acc) []

/-- The non-empty branch of `merge_data` for one granularity
(src/main.py:158-162): vertical concat of the accumulated frames, sort by
`datetime`, dedup by `datetime` keeping the last occurrence, re-sort. -/
def merge_one (frames : List (List Bar)) : List Bar :=
  sortBars (dedupKeepLast (sortBars frames.flatten))

/-- Polars dtypes occurring in the engine's bar frames. -/
inductive PDtype where
  | datetimeUTC : PDtype
  | float64 : PDtype
  | uint32 : PDtype
  | int64 : PDtype
deriving DecidableEq, Repr

/-- Schema of a frame produced by `bars_from_ticks`: the `group_by_dynamic`
index keeps its `Datetime("us", "UTC")` dtype, `first/max/min/last` keep
`Float64`, and `pl.len()` produces a `UInt32` column. -/
def agg_schema : List (String × PDtype) :=
  [("datetime", PDtype.datetimeUTC), ("open", PDtype.float64),
   ("high", PDtype.float64), ("low", PDtype.float64),
   ("close", PDtype.float64), ("volume", PDtype.uint32)]

/-- Schema declared for the empty frame in `merge_data` (src/main.py:164-173). -/
def merge_empty_schema : List (String × PDtype) :=
  [("datetime", PDtype.datetimeUTC), ("open", PDtype.float64),
   ("high", PDtype.float64), ("low", PDtype.float64),
   ("close", PDtype.float64), ("volume", PDtype.int64)]

/-- A polars DataFrame of bars: its schema and its rows. -/
structure BarFrame where
  schema : List (String × PDtype)
  rows : List Bar
deriving DecidableEq, Repr

deriving instance DecidableEq for Except

/-- Model of `merge_data(bars_out, rules)` (src/main.py:155-174).  The dict
`bars_out` keyed by the rules is modelled as an association list (one entry
per configured rule, in rule order).  A rule with accumulated frames gets the
concat/sort/dedup/re-sort merge (whose schema is the `bars_from_ticks` output
schema, preserved by all those operations); a rule without any gets the
explicitly declared empty typed frame. -/
def merge_data (bars_out : List (String × List (List Bar))) : List (String × BarFrame) :=
  bars_out.map (fun p =>
    if p.2.isEmpty then (p.1, ⟨merge_empty_schema, []⟩)
    else (p.1, ⟨agg_schema, merge_one p.2⟩))

/-- ASCII whitespace as matched by Python `str.strip()` and `\s` (the
configured rule strings are ASCII). -/
def pySpace (c : Char) : Bool :=
  c == ' ' || c == '\t' || c == '\n' || c == '\r' || c == '\x0b' || c == '\x0c'

/-- Python `str.strip()` on a character list. -/
def pyStrip (l : List Char) : List Char :=
  ((l.dropWhile pySpace).reverse.dropWhile pySpace).reverse

/-- Decimal value of a digit string. -/
def parseNat (ds : List Char) : Nat :=
  ds.foldl (fun a c => 10 * a + (c.toNat - 48)) 0

/-- Model of `rule_to_seconds(rule)` (src/main.py:144-148):
`re.fullmatch(r"(\d+)\s*s", rule.strip())` — one or more digits, then
optional whitespace, then the letter `s`, spanning the whole stripped
string — else `ValueError`. -/
def rule_to_seconds (rule : String) : Except String Int :=
  let s := pyStrip rule.data
  let ds := s.takeWhile Char.isDigit
  let rest := (s.dropWhile Char.isDigit).dropWhile pySpace
  if ds.isEmpty then Except.error ("Only Ns rules supported here, got: " ++ rule)
  else if rest = ['s'] then Except.ok (Int.ofNat (parseNat ds))
  else Except.error ("Only Ns rules supported here, got: " ++ rule)

/-- The claim's whole-seconds form, read literally: one or more digits
followed immediately by `s`, nothing else. -/
def matches_Ns (rule : String) : Bool :=
  match rule.data.getLast? with
  | some 's' => !rule.data.dropLast.isEmpty && rule.data.dropLast.all Char.isDigit
  | _ => false

/-- The whole-seconds form actually accepted by the code's
`re.fullmatch(r"(\d+)\s*s", rule.strip())`: one or more digits and a final
`s`, with optional whitespace around the digits and before the `s`. -/
def matches_Ns_lenient (rule : String) : Bool :=
  let s := pyStrip rule.data
  !(s.takeWhile Char.isDigit).isEmpty &&
    ((s.dropWhile Char.isDigit).dropWhile pySpace == ['s'])

/-- The dict comprehension `rule_secs = {r: rule_to_seconds(r) for r in rules}`
(src/main.py:179): resolve every rule's window length, propagating the first
`ValueError`. -/
def resolve_rule_secs : List String → Except String (List (String × Int))
  | [] => Except.ok []
  | r :: rest => do
    let s ← rule_to_seconds r
    let others ← resolve_rule_secs rest
    pure ((r, s) :: others)

/-- Model of `build_bars_from_ticks` (src/main.py:176-206) after the
sanitizer boundary: the window length of every configured rule is resolved
first (`rule_secs`, which raises on a malformed rule before any batch is
pulled from the reader), then the batch loop runs for every rule over the
stream of canonical tick batches, then the accumulated frames are merged. -/
def build_bars_from_ticks (rules : List String) (batches : List (List Tick)) :
    Except String (List (String × BarFrame)) := do
  let ruleSecs ← resolve_rule_secs rules
  let outs := ruleSecs.map (fun p => (p.1, (loop_through_files p.2 batches).out))
  pure (merge_data outs)

/-- Last character of `str(years)`: the last decimal digit of `|years|`. -/
def lastDigitStr (years : Int) : String := toString (years.natAbs % 10)

/-- Model of `filter_symbol_in_files(symbol, years, month)`
(src/main.py:86-108): futures rollover month-to-contract-code table,
December rolling into the next year's March contract, result
`f"{symbol}{code}{str(years)[-1]}"`. -/
def filter_symbol_in_files (symbol : String) (years month : Int) : Option String :=
  if month = 12 then some (symbol ++ "H" ++ lastDigitStr (years + 1))
  else if month = 1 ∨ month = 2 ∨ month = 3 then some (symbol ++ "H" ++ lastDigitStr years)
  else if month = 4 ∨ month = 5 ∨ month = 6 then some (symbol ++ "M" ++ lastDigitStr years)
  else if month = 7 ∨ month = 8 ∨ month = 9 then some (symbol ++ "U" ++ lastDigitStr years)
  else if month = 10 ∨ month = 11 then some (symbol ++ "Z" ++ lastDigitStr years)
  else none

/-- Modelled from the spec: the claimed month-to-contract mapping
(contract-month code and contract year), used to compare
`filter_symbol_in_files` against the specification's table. -/
def contract_month_spec (years month : Int) : Option (String × Int) :=
  if month = 12 then some ("H", years + 1)
  else if 1 ≤ month ∧ month ≤ 3 then some ("H", years)
  else if 4 ≤ month ∧ month ≤ 6 then some ("M", years)
  else if 7 ≤ month ∧ month ≤ 9 then some ("U", years)
  else if 10 ≤ month ∧ month ≤ 11 then some ("Z", years)
  else none

/-- Exact fractional epoch seconds of a microsecond instant
(`datetime.timestamp()` modelled without float rounding). -/
def epoch_seconds (dt : Int) : Rat := (dt : Rat) / (usPerSec : Rat)

/-- Modelled from the spec: the claimed value of the watermark computation,
`floor(epoch_seconds(dt) / sec) * sec` reinterpreted as a UTC instant
(in microseconds). -/
def floor_dt_spec (dt sec : Int) : Int :=
  (⌊epoch_seconds dt / (sec : Rat)⌋ * sec) * usPerSec

/-! ### Arithmetic helpers about floor division, truncation and windows -/

theorem usPerSec_pos : (0 : Int) < usPerSec := by norm_num [usPerSec]

theorem winUs_pos {sec : Int} (h : 0 < sec) : 0 < winUs sec :=
  mul_pos h usPerSec_pos

theorem Int_ediv_ediv (a : Int) {b c : Int} (hb : 0 < b) (hc : 0 < c) :
    a / b / c = a / (b * c) := by
  apply le_antisymm
  · rw [Int.le_ediv_iff_mul_le (mul_pos hb hc)]
    calc a / b / c * (b * c) = a / b / c * c * b := by ring
      _ ≤ a / b * b :=
        mul_le_mul_of_nonneg_right (Int.ediv_mul_le _ (ne_of_gt hc)) (le_of_lt hb)
      _ ≤ a := Int.ediv_mul_le _ (ne_of_gt hb)
  · rw [Int.le_ediv_iff_mul_le hc, Int.le_ediv_iff_mul_le hb]
    calc a / (b * c) * c * b = a / (b * c) * (b * c) := by ring
      _ ≤ a := Int.ediv_mul_le _ (ne_of_gt (mul_pos hb hc))

theorem ediv_le_tdiv (a : Int) {b : Int} (hb : 0 < b) : a / b ≤ a.tdiv b := by
  rcases le_total 0 a with ha | ha
  · rw [Int.tdiv_eq_ediv ha (le_of_lt hb)]
  · rw [show a.tdiv b = -((-a).tdiv b) by rw [Int.neg_tdiv, neg_neg]]
    rw [Int.tdiv_eq_ediv (by omega) (le_of_lt hb)]
    have h2 : a / b * b ≤ a := Int.ediv_mul_le _ (ne_of_gt hb)
    have h3 : (-a) / b * b ≤ -a := Int.ediv_mul_le _ (ne_of_gt hb)
    nlinarith

theorem window_start_le {sec : Int} (hsec : 0 < sec) (t : Int) :
    window_start sec t ≤ t :=
  Int.ediv_mul_le _ (ne_of_gt (winUs_pos hsec))

theorem lt_window_start_add {sec : Int} (hsec : 0 < sec) (t : Int) :
    t < window_start sec t + winUs sec := by
  calc t < (t / winUs sec + 1) * winUs sec :=
        Int.lt_ediv_add_one_mul_self t (winUs_pos hsec)
    _ = window_start sec t + winUs sec := by unfold window_start; ring

theorem window_start_mono {sec : Int} (hsec : 0 < sec) {t u : Int} (h : t ≤ u) :
    window_start sec t ≤ window_start sec u :=
  mul_le_mul_of_nonneg_right (Int.ediv_le_ediv (winUs_pos hsec) h)
    (le_of_lt (winUs_pos hsec))

theorem window_start_idem {sec : Int} (hsec : 0 < sec) (t : Int) :
    window_start sec (window_start sec t) = window_start sec t := by
  unfold window_start
  rw [Int.mul_ediv_cancel _ (ne_of_gt (winUs_pos hsec))]

theorem le_window_start_of_le {sec : Int} (hsec : 0 < sec) {t W : Int}
    (hW : window_start sec W = W) (h : W ≤ t) : W ≤ window_start sec t := by
  have := window_start_mono hsec h
  rwa [hW] at this

theorem window_start_lt_of_lt {sec : Int} (hsec : 0 < sec) {t W : Int}
    (h : t < W) : window_start sec t < W := by
  have := window_start_le hsec t
  omega

theorem window_start_eq_of_between {sec : Int} (hsec : 0 < sec) {t M : Int}
    (h1 : window_start sec M ≤ t) (h2 : t ≤ M) :
    window_start sec t = window_start sec M := by
  have ha := le_window_start_of_le hsec (window_start_idem hsec M) h1
  have hb := window_start_mono hsec h2
  omega

theorem window_start_eq_iff {sec : Int} (hsec : 0 < sec) {t W : Int}
    (hW : window_start sec W = W) :
    window_start sec t = W ↔ W ≤ t ∧ t < W + winUs sec := by
  have hSpos : 0 < winUs sec := winUs_pos hsec
  constructor
  · rintro rfl
    exact ⟨window_start_le hsec t, lt_window_start_add hsec t⟩
  · rintro ⟨h1, h2⟩
    have e1 : W / winUs sec * winUs sec = W := hW
    have d1 : W / winUs sec ≤ t / winUs sec := Int.ediv_le_ediv hSpos h1
    have d2 : t / winUs sec < W / winUs sec + 1 := by
      rw [Int.ediv_lt_iff_lt_mul hSpos]
      have : (W / winUs sec + 1) * winUs sec = W + winUs sec := by
        rw [add_mul, one_mul, e1]
      omega
    have e2 : t / winUs sec = W / winUs sec := by omega
    unfold window_start
    rw [e2, e1]

theorem window_start_le_floor_dt {sec : Int} (hsec : 0 < sec) (M : Int) :
    window_start sec M ≤ floor_dt_to_seconds M sec := by
  unfold window_start floor_dt_to_seconds winUs
  have e1 : M / (sec * usPerSec) = M / usPerSec / sec := by
    rw [Int_ediv_ediv M usPerSec_pos hsec, mul_comm]
  have e2 : M / usPerSec / sec ≤ M.tdiv usPerSec / sec :=
    Int.ediv_le_ediv hsec (ediv_le_tdiv M usPerSec_pos)
  calc M / (sec * usPerSec) * (sec * usPerSec)
      = ((M / usPerSec / sec) * sec) * usPerSec := by rw [e1]; ring
    _ ≤ ((M.tdiv usPerSec / sec) * sec) * usPerSec := by
        apply mul_le_mul_of_nonneg_right _ (le_of_lt usPerSec_pos)
        exact mul_le_mul_of_nonneg_right e2 (le_of_lt hsec)

theorem floor_dt_eq_window_start {M sec : Int} (hM : 0 ≤ M) (hsec : 0 < sec) :
    floor_dt_to_seconds M sec = window_start sec M := by
  unfold window_start floor_dt_to_seconds winUs
  rw [Int.tdiv_eq_ediv hM (le_of_lt usPerSec_pos)]
  rw [show M / (sec * usPerSec) = M / usPerSec / sec by
    rw [Int_ediv_ediv M usPerSec_pos hsec, mul_comm]]
  ring

theorem window_start_floor_dt {sec : Int} (hsec : 0 < sec) (M : Int) :
    window_start sec (floor_dt_to_seconds M sec) = floor_dt_to_seconds M sec := by
  unfold window_start floor_dt_to_seconds
  have hS : winUs sec ≠ 0 := ne_of_gt (winUs_pos hsec)
  rw [show M.tdiv usPerSec / sec * sec * usPerSec
      = (M.tdiv usPerSec / sec) * winUs sec by unfold winUs; ring]
  rw [Int.mul_ediv_cancel _ hS]

/-- C3 counterexample input: the instant half a second before the epoch
(`1969-12-31 23:59:59.5 UTC`), window length 60 s.  The code truncates the
epoch seconds toward zero (`int(-0.5) = 0`) and returns the epoch itself,
while the claimed value floors and gives `1969-12-31 23:59:00`. -/
theorem floor_dt_claim_counterexample :
    floor_dt_to_seconds (-500000) 60 = 0 ∧ floor_dt_spec (-500000) 60 = -60000000 ∧
    floor_dt_to_seconds (-500000) 60 ≠ floor_dt_spec (-500000) 60 := by
  have h1 : floor_dt_to_seconds (-500000) 60 = 0 := by decide
  have h2 : floor_dt_spec (-500000) 60 = -60000000 := by
    norm_num [floor_dt_spec, epoch_seconds, usPerSec]
  exact ⟨h1, h2, by rw [h1, h2]; decide⟩

/-- C3 (amended): for every UTC instant at or after the Unix epoch and every
window length `sec > 0`, `floor_dt_to_seconds` equals the instant whose
epoch-seconds value is `floor(epoch_seconds(dt) / sec) * sec`.  (For
pre-epoch instants the code truncates `epoch_seconds(dt)` toward zero before
flooring, which can differ — see the counterexample.) -/
theorem floor_dt_matches_spec_of_nonneg (dt sec : Int) (hdt : 0 ≤ dt) (hsec : 0 < sec) :
    floor_dt_to_seconds dt sec = floor_dt_spec dt sec := by
  unfold floor_dt_to_seconds floor_dt_spec epoch_seconds
  rw [Int.tdiv_eq_ediv hdt (le_of_lt usPerSec_pos)]
  have hpos : (0 : Int) < usPerSec * sec := mul_pos usPerSec_pos hsec
  have hd : (((usPerSec * sec).toNat : Int)) = usPerSec * sec :=
    Int.toNat_of_nonneg (le_of_lt hpos)
  have e0 : ((dt : Rat) / (usPerSec : Rat)) / (sec : Rat)
      = (dt : Rat) / (((usPerSec * sec).toNat : Nat) : Rat) := by
    rw [div_div]
    congr 1
    have : (((usPerSec * sec).toNat : Nat) : Rat) = ((usPerSec * sec : Int) : Rat) := by
      exact_mod_cast congrArg (fun z : Int => (z : Rat)) hd
    rw [this]
    push_cast
    ring
  rw [e0, Rat.floor_intCast_div_natCast, hd]
  rw [show dt / (usPerSec * sec) = dt / usPerSec / sec from
    (Int_ediv_ediv dt usPerSec_pos hsec).symm]

/-- Witness for the amended C3 at `09:00:00.100 UTC`, 60-second windows. -/
theorem floor_dt_matches_spec_witness :
    (0 : Int) ≤ 32400100000 ∧ (0 : Int) < 60 ∧
      floor_dt_to_seconds 32400100000 60 = floor_dt_spec 32400100000 60 :=
  ⟨by decide, by decide, floor_dt_matches_spec_of_nonneg 32400100000 60 (by decide) (by decide)⟩

/-! ### C2: the end-to-end example -/

/-- C2: feeding the four canonical ticks `(09:00:00.100, 100.0)`,
`(09:00:00.900, 101.0)`, `(09:00:01.200, 99.5)`, `(09:01:05.000, 102.0)`
(times on 1970-01-01 UTC, in microseconds since the epoch) through the
streaming pipeline for the single granularity `"60s"`, flushing at
end-of-input, produces exactly two bars:
`09:00:00 {open 100.0, high 101.0, low 99.5, close 99.5, volume 3}` and
`09:01:00 {open 102.0, high 102.0, low 102.0, close 102.0, volume 1}`. -/
theorem end_to_end_example :
    build_bars_from_ticks ["60s"]
      [[⟨32400100000, 100⟩, ⟨32400900000, 101⟩, ⟨32401200000, mkRat 199 2⟩,
        ⟨32465000000, 102⟩]]
    = Except.ok [("60s", ⟨agg_schema,
        [⟨32400000000, 100, 101, mkRat 199 2, mkRat 199 2, 3⟩,
         ⟨32460000000, 102, 102, 102, 102, 1⟩]⟩)] := by
  decide

/-! ### C8 and C10: the symbol filter -/

/-- C8: `filter_symbol_in_files` realizes exactly the claimed month table —
December of year `Y` maps to contract code `H` of year `Y+1`, months 1–3 to
`H` of year `Y`, 4–6 to `M`, 7–9 to `U`, 10–11 to `Z`, and any other month
value yields no filter — where the contract is rendered as the symbol, the
code, and the last decimal digit of the contract year. -/
theorem filter_symbol_matches_spec (s : String) (y m : Int) :
    filter_symbol_in_files s y m =
      (contract_month_spec y m).map (fun p => s ++ p.1 ++ lastDigitStr p.2) := by
  unfold filter_symbol_in_files contract_month_spec
  split_ifs <;> first | rfl | omega

theorem lastDigitStr_add_ten {z : Int} (hz : 0 ≤ z) :
    lastDigitStr (z + 10) = lastDigitStr z := by
  unfold lastDigitStr
  congr 1
  obtain ⟨n, rfl⟩ := Int.eq_ofNat_of_zero_le hz
  rw [show ((n : Int) + 10) = ((n + 10 : Nat) : Int) by push_cast; ring]
  rw [Int.natAbs_ofNat, Int.natAbs_ofNat]
  omega

/-- C10: for valid inputs (a non-negative — in particular 4-digit — year and
a month in 1–12) the symbol filter equals the symbol, the claimed
contract-month code, and the last decimal digit of the (possibly
rolled-over) contract year; consequently it cannot distinguish years ten
apart. -/
theorem filter_symbol_last_digit (s : String) (y m : Int) (hy : 0 ≤ y)
    (hm1 : 1 ≤ m) (hm2 : m ≤ 12) :
    (∃ code y2, contract_month_spec y m = some (code, y2) ∧
        filter_symbol_in_files s y m = some (s ++ code ++ toString (y2.natAbs % 10))) ∧
    filter_symbol_in_files s y m = filter_symbol_in_files s (y + 10) m := by
  obtain ⟨n, rfl⟩ := Int.eq_ofNat_of_zero_le hy
  have h10 : lastDigitStr ((n : Int) + 10) = lastDigitStr (n : Int) :=
    lastDigitStr_add_ten (by positivity)
  have h11 : lastDigitStr ((n : Int) + 10 + 1) = lastDigitStr ((n : Int) + 1) := by
    rw [show ((n : Int) + 10 + 1) = ((n : Int) + 1) + 10 by ring]
    exact lastDigitStr_add_ten (by positivity)
  constructor
  · interval_cases m <;> exact ⟨_, _, rfl, rfl⟩
  · interval_cases m <;> simp [filter_symbol_in_files, h10, h11]

/-- Witness for C10 at `("NQ", 2020, December)`. -/
theorem filter_symbol_last_digit_witness :
    ((0 : Int) ≤ 2020 ∧ (1 : Int) ≤ 12 ∧ (12 : Int) ≤ 12) ∧
    ((∃ code y2, contract_month_spec 2020 12 = some (code, y2) ∧
        filter_symbol_in_files "NQ" 2020 12
          = some ("NQ" ++ code ++ toString (y2.natAbs % 10))) ∧
      filter_symbol_in_files "NQ" 2020 12
        = filter_symbol_in_files "NQ" (2020 + 10) 12) :=
  ⟨⟨by decide, by decide, by decide⟩,
    filter_symbol_last_digit "NQ" 2020 12 (by decide) (by decide) (by decide)⟩

/-! ### C9: malformed rule strings -/

/-- C9 counterexample: the configured window-length string `"60 s"` does not
match the claim's whole-seconds form `<N>s` (digits followed immediately by
`s`), yet the run does not fail: it returns the complete mapping, because
the code's regex `(\d+)\s*s` (on the stripped string) tolerates interior
whitespace. -/
theorem rule_form_counterexample :
    matches_Ns "60 s" = false ∧
    rule_to_seconds "60 s" = Except.ok 60 ∧
    build_bars_from_ticks ["60 s"] []
      = Except.ok [("60 s", ⟨merge_empty_schema, []⟩)] := by
  refine ⟨by decide, by decide, by decide⟩

theorem resolve_rule_secs_error {rules : List String}
    (h : ∃ r ∈ rules, matches_Ns_lenient r = false) :
    ∃ e, resolve_rule_secs rules = Except.error e := by
  induction rules with
  | nil =>
    obtain ⟨r, hr, _⟩ := h
    exact absurd hr (List.not_mem_nil r)
  | cons a l ih =>
    cases hrs : rule_to_seconds a with
    | error e =>
      refine ⟨e, ?_⟩
      simp only [resolve_rule_secs]
      rw [hrs]
      rfl
    | ok s =>
      have hmem : ∃ r ∈ l, matches_Ns_lenient r = false := by
        obtain ⟨r, hr, hrf⟩ := h
        rcases List.mem_cons.mp hr with rfl | hr'
        · exfalso
          unfold rule_to_seconds at hrs
          unfold matches_Ns_lenient at hrf
          by_cases h1 : ((pyStrip r.data).takeWhile Char.isDigit).isEmpty
          · rw [if_pos h1] at hrs; exact Except.noConfusion hrs
          · by_cases h2 : ((pyStrip r.data).dropWhile Char.isDigit).dropWhile pySpace = ['s']
            · simp only [h1, h2] at hrf
              simp at hrf
            · rw [if_neg h1, if_neg h2] at hrs; exact Except.noConfusion hrs
        · exact ⟨r, hr', hrf⟩
      obtain ⟨e', he'⟩ := ih hmem
      refine ⟨e', ?_⟩
      simp only [resolve_rule_secs]
      rw [hrs]
      show (resolve_rule_secs l >>= fun others => pure ((a, s) :: others))
        = Except.error e'
      rw [he']
      rfl

/-- C9 (amended): if any configured window-length string fails the
whole-seconds form actually enforced by the code — one or more digits and a
final `s`, allowing surrounding and interior whitespace — then
`build_bars_from_ticks` fails with an error that does not depend on the
batch stream (so no batch is consumed and no partial per-granularity
mapping is returned). -/
theorem build_fails_on_malformed_rule (rules : List String)
    (h : ∃ r ∈ rules, matches_Ns_lenient r = false) :
    ∃ e, ∀ batches : List (List Tick),
      build_bars_from_ticks rules batches = Except.error e := by
  obtain ⟨e, he⟩ := resolve_rule_secs_error h
  refine ⟨e, fun batches => ?_⟩
  unfold build_bars_from_ticks
  rw [he]
  rfl

/-- Witness for the amended C9 with the malformed rule `"6m"`. -/
theorem build_fails_on_malformed_rule_witness :
    (∃ r ∈ ["60s", "6m"], matches_Ns_lenient r = false) ∧
    ∃ e, ∀ batches : List (List Tick),
      build_bars_from_ticks ["60s", "6m"] batches = Except.error e :=
  ⟨⟨"6m", by decide, by decide⟩,
    build_fails_on_malformed_rule ["60s", "6m"] ⟨"6m", by decide, by decide⟩⟩

/-! ### C7: per-granularity completeness of the output mapping -/

/-- C7 counterexample: a granularity that did accumulate bars is returned
with the `bars_from_ticks` output schema, whose `volume` column is the
`UInt32` produced by `pl.len()` — not the `Int64` declared for the canonical
empty frame — so the empty series' types are not "the same types as the
series produced for granularities that did accumulate bars", and the
produced series' volume is not int64. -/
theorem empty_granularity_types_counterexample :
    build_bars_from_ticks ["60s"] [[⟨0, 1⟩]]
      = Except.ok [("60s", ⟨agg_schema, [⟨0, 1, 1, 1, 1, 1⟩]⟩)] ∧
    agg_schema ≠ merge_empty_schema ∧
    ("volume", PDtype.uint32) ∈ agg_schema ∧ ("volume", PDtype.int64) ∈ merge_empty_schema := by
  exact ⟨by decide, by decide, by decide, by decide⟩

/-- C7 (amended): `merge_data` returns one entry per configured granularity,
in configuration order; a granularity that never accumulated a finalized bar
frame is mapped to the declared empty frame (UTC-timed datetime, float64
OHLC, `Int64` volume, no rows); a granularity with accumulated frames keeps
the `bars_from_ticks` output schema, which agrees with the empty one on
every column except `volume`, where `pl.len()` yields `UInt32` instead of
`Int64`. -/
theorem merge_data_completeness (bars_out : List (String × List (List Bar))) :
    (merge_data bars_out).map Prod.fst = bars_out.map Prod.fst ∧
    (∀ p ∈ bars_out, p.2 = [] →
      ((p.1, (⟨merge_empty_schema, ([] : List Bar)⟩ : BarFrame)) ∈ merge_data bars_out)) ∧
    (∀ p ∈ bars_out, p.2 ≠ [] →
      ((p.1, (⟨agg_schema, merge_one p.2⟩ : BarFrame)) ∈ merge_data bars_out)) ∧
    agg_schema.map Prod.fst = merge_empty_schema.map Prod.fst ∧
    agg_schema.take 5 = merge_empty_schema.take 5 := by
  refine ⟨?_, ?_, ?_, by decide, by decide⟩
  · unfold merge_data
    rw [List.map_map]
    apply List.map_congr_left
    intro p hp
    simp only [Function.comp_apply]
    split <;> rfl
  · intro p hp hpe
    have : (if p.2.isEmpty then (p.1, (⟨merge_empty_schema, ([] : List Bar)⟩ : BarFrame))
        else (p.1, (⟨agg_schema, merge_one p.2⟩ : BarFrame)))
        ∈ merge_data bars_out := List.mem_map_of_mem _ hp
    rwa [if_pos (by simp [hpe])] at this
  · intro p hp hpe
    have : (if p.2.isEmpty then (p.1, (⟨merge_empty_schema, ([] : List Bar)⟩ : BarFrame))
        else (p.1, (⟨agg_schema, merge_one p.2⟩ : BarFrame)))
        ∈ merge_data bars_out := List.mem_map_of_mem _ hp
    rwa [if_neg (by simp [hpe])] at this

/-- Witness for the amended C7 on a run with one populated and one empty
granularity. -/
theorem merge_data_completeness_witness :
    (("300s", (⟨merge_empty_schema, ([] : List Bar)⟩ : BarFrame))
        ∈ merge_data [("60s", [[⟨0, 1, 1, 1, 1, 1⟩]]), ("300s", [])]) ∧
    (("60s", (⟨agg_schema, merge_one [[⟨0, 1, 1, 1, 1, 1⟩]]⟩ : BarFrame))
        ∈ merge_data [("60s", [[⟨0, 1, 1, 1, 1, 1⟩]]), ("300s", [])]) := by
  have H := merge_data_completeness [("60s", [[⟨0, 1, 1, 1, 1, 1⟩]]), ("300s", [])]
  exact ⟨H.2.1 ("300s", []) (by decide) rfl, H.2.2.1 ("60s", [[⟨0, 1, 1, 1, 1, 1⟩]]) (by decide) (by decide)⟩

/-! ### C6: the merge/dedup stage -/

theorem dedupKeepLast_nil : dedupKeepLast [] = [] := rfl

theorem dedupKeepLast_cons (b : Bar) (l : List Bar) :
    dedupKeepLast (b :: l) =
      if (dedupKeepLast l).any (fun c => c.ws == b.ws) then dedupKeepLast l
      else b :: dedupKeepLast l := rfl

theorem dedupKeepLast_any (w : Int) :
    ∀ l : List Bar,
      (dedupKeepLast l).any (fun c => c.ws == w) = l.any (fun c => c.ws == w)
  | [] => rfl
  | b :: l => by
    rw [dedupKeepLast_cons]
    by_cases h : (dedupKeepLast l).any (fun c => c.ws == b.ws) = true
    · rw [if_pos h, List.any_cons]
      by_cases hw : b.ws == w
      · have hb : b.ws = w := by simpa using hw
        have : l.any (fun c => c.ws == w) = true := by
          rw [← hb, ← dedupKeepLast_any b.ws l]; exact h
        rw [dedupKeepLast_any w l, this, hw]
        rfl
      · rw [dedupKeepLast_any w l]
        simp [hw]
    · rw [if_neg h, List.any_cons, List.any_cons, dedupKeepLast_any w l]

theorem dedupKeepLast_sublist : ∀ l : List Bar, List.Sublist (dedupKeepLast l) l
  | [] => List.Sublist.refl []
  | b :: l => by
    rw [dedupKeepLast_cons]
    by_cases h : (dedupKeepLast l).any (fun c => c.ws == b.ws) = true
    · rw [if_pos h]
      exact (dedupKeepLast_sublist l).cons b
    · rw [if_neg h]
      exact (dedupKeepLast_sublist l).cons₂ b

theorem dedupKeepLast_keys_nodup :
    ∀ l : List Bar, (dedupKeepLast l).Pairwise (fun a b => a.ws ≠ b.ws)
  | [] => List.Pairwise.nil
  | b :: l => by
    rw [dedupKeepLast_cons]
    by_cases h : (dedupKeepLast l).any (fun c => c.ws == b.ws) = true
    · rw [if_pos h]
      exact dedupKeepLast_keys_nodup l
    · rw [if_neg h]
      refine List.Pairwise.cons ?_ (dedupKeepLast_keys_nodup l)
      intro c hc hbc
      exact h (List.any_eq_true.mpr ⟨c, hc, by simp [hbc]⟩)

theorem getLast?_cons_of_ne_nil {α : Type} (a : α) {l : List α} (h : l ≠ []) :
    (a :: l).getLast? = l.getLast? := by
  cases l with
  | nil => exact absurd rfl h
  | cons x xs => exact List.getLast?_cons_cons

theorem filter_ne_nil_of_any {l : List Bar} {w : Int}
    (h : l.any (fun c => c.ws == w) = true) :
    l.filter (fun c => c.ws == w) ≠ [] := by
  obtain ⟨c, hc, hcw⟩ := List.any_eq_true.mp h
  intro hnil
  exact (List.filter_eq_nil_iff.mp hnil) c hc hcw

theorem dedupKeepLast_filter (w : Int) :
    ∀ l : List Bar,
      (dedupKeepLast l).filter (fun c => c.ws == w)
        = ((l.filter (fun c => c.ws == w)).getLast?).toList
  | [] => rfl
  | b :: l => by
    rw [dedupKeepLast_cons]
    by_cases hb : (b.ws == w) = true
    · have hfc : List.filter (fun c => c.ws == w) (b :: l)
          = b :: List.filter (fun c => c.ws == w) l := by
        simp only [List.filter_cons, hb, if_true]
      by_cases h : (dedupKeepLast l).any (fun c => c.ws == b.ws) = true
      · rw [if_pos h]
        have hlany : l.any (fun c => c.ws == w) = true := by
          have hb' : b.ws = w := by simpa using hb
          rw [← hb', ← dedupKeepLast_any b.ws l]
          exact h
        rw [dedupKeepLast_filter w l, hfc]
        rw [getLast?_cons_of_ne_nil b (filter_ne_nil_of_any hlany)]
      · rw [if_neg h]
        have hlany : l.any (fun c => c.ws == w) = false := by
          have hb' : b.ws = w := by simpa using hb
          rw [← hb', ← dedupKeepLast_any b.ws l]
          simpa using h
        have hfil : l.filter (fun c => c.ws == w) = [] := by
          rw [List.filter_eq_nil_iff]
          intro c hc hcw
          have hcontra : l.any (fun c => c.ws == w) = true :=
            List.any_eq_true.mpr ⟨c, hc, hcw⟩
          rw [hlany] at hcontra
          exact Bool.noConfusion hcontra
        have hfil2 : (dedupKeepLast l).filter (fun c => c.ws == w) = [] := by
          rw [dedupKeepLast_filter w l, hfil]
          rfl
        have hfc2 : List.filter (fun c => c.ws == w) (b :: dedupKeepLast l)
            = b :: List.filter (fun c => c.ws == w) (dedupKeepLast l) := by
          simp only [List.filter_cons, hb, if_true]
        rw [hfc2, hfil2, hfc, hfil]
        rfl
    · have hb' : (b.ws == w) = false := by simpa using hb
      have hfc : List.filter (fun c => c.ws == w) (b :: l)
          = List.filter (fun c => c.ws == w) l := by
        simp only [List.filter_cons, hb', Bool.false_eq_true, if_false]
      by_cases h : (dedupKeepLast l).any (fun c => c.ws == b.ws) = true
      · rw [if_pos h, dedupKeepLast_filter w l, hfc]
      · have hfc2 : List.filter (fun c => c.ws == w) (b :: dedupKeepLast l)
            = List.filter (fun c => c.ws == w) (dedupKeepLast l) := by
          simp only [List.filter_cons, hb', Bool.false_eq_true, if_false]
        rw [if_neg h, hfc2, hfc, dedupKeepLast_filter w l]

theorem sortBars_sorted (l : List Bar) : List.Sorted barLE (sortBars l) :=
  List.sorted_insertionSort barLE l

theorem sortBars_eq_of_sorted {l : List Bar} (h : List.Sorted barLE l) :
    sortBars l = l :=
  h.insertionSort_eq

theorem merge_one_eq (frames : List (List Bar)) :
    merge_one frames = dedupKeepLast (sortBars frames.flatten) := by
  unfold merge_one
  apply sortBars_eq_of_sorted
  exact List.Pairwise.sublist (dedupKeepLast_sublist _) (sortBars_sorted _)

/-- C6: for every granularity whose accumulated bar-list is non-empty,
`merge_data` returns a series that is strictly sorted by `window_start` (so
in particular has no duplicate `window_start` keys), and for every
`window_start` key the row kept is the last occurrence in sort-then-append
order — the last row with that key of the stably sorted concatenation of the
accumulated frames, i.e. the one from the latest-appended finalize pass. -/
theorem merge_dedup_keeps_last (bars_out : List (String × List (List Bar)))
    (p : String × List (List Bar)) (hp : p ∈ bars_out) (hne : p.2 ≠ []) :
    ∃ df : BarFrame, (p.1, df) ∈ merge_data bars_out ∧
      df.rows.Pairwise (fun a b => a.ws < b.ws) ∧
      ∀ w : Int, df.rows.filter (fun c => c.ws == w)
        = ((sortBars p.2.flatten).filter (fun c => c.ws == w)).getLast?.toList := by
  refine ⟨⟨agg_schema, merge_one p.2⟩, ?_, ?_, ?_⟩
  · have hmem : (if p.2.isEmpty then (p.1, (⟨merge_empty_schema, ([] : List Bar)⟩ : BarFrame))
        else (p.1, (⟨agg_schema, merge_one p.2⟩ : BarFrame))) ∈ merge_data bars_out :=
      List.mem_map_of_mem _ hp
    rwa [if_neg (fun hcontra => hne (List.isEmpty_iff.mp hcontra))] at hmem
  · show (merge_one p.2).Pairwise (fun a b => a.ws < b.ws)
    rw [merge_one_eq]
    have hsorted : (dedupKeepLast (sortBars p.2.flatten)).Pairwise barLE :=
      List.Pairwise.sublist (dedupKeepLast_sublist _) (sortBars_sorted _)
    have hnodup := dedupKeepLast_keys_nodup (sortBars p.2.flatten)
    exact (hsorted.and hnodup).imp (fun hab => lt_of_le_of_ne hab.1 hab.2)
  · intro w
    show (merge_one p.2).filter (fun c => c.ws == w) = _
    rw [merge_one_eq]
    exact dedupKeepLast_filter w (sortBars p.2.flatten)

/-- Witness for C6 on a run whose two finalize passes produced two bars with
the same window key: the merged series keeps the later one. -/
theorem merge_dedup_keeps_last_witness :
    ∃ df : BarFrame,
      ("60s", df) ∈ merge_data [("60s", [[⟨0, 1, 1, 1, 1, 1⟩], [⟨0, 2, 2, 2, 2, 1⟩]])] ∧
      df.rows.Pairwise (fun a b => a.ws < b.ws) ∧
      ∀ w : Int, df.rows.filter (fun c => c.ws == w)
        = ((sortBars ([[⟨0, 1, 1, 1, 1, 1⟩], [⟨0, 2, 2, 2, 2, 1⟩]] :
              List (List Bar)).flatten).filter (fun c => c.ws == w)).getLast?.toList :=
  merge_dedup_keeps_last [("60s", [[⟨0, 1, 1, 1, 1, 1⟩], [⟨0, 2, 2, 2, 2, 1⟩]])]
    ("60s", [[⟨0, 1, 1, 1, 1, 1⟩], [⟨0, 2, 2, 2, 2, 1⟩]]) (by decide) (by decide)

/-! ### C4: the bar reducer contract -/

theorem bars_go_fuel (sec : Int) :
    ∀ (f1 f2 : Nat) (l : List Tick), l.length ≤ f1 → l.length ≤ f2 →
      bars_go sec f1 l = bars_go sec f2 l := by
  intro f1
  induction f1 with
  | zero =>
    intro f2 l h1 h2
    cases l with
    | nil => cases f2 <;> rfl
    | cons h t => simp at h1
  | succ f ih =>
    intro f2 l h1 h2
    cases l with
    | nil => cases f2 <;> rfl
    | cons h t =>
      cases f2 with
      | zero => simp at h2
      | succ f2' =>
        simp only [bars_go]
        congr 1
        have hd : (t.dropWhile
            (fun u => window_start sec u.dt == window_start sec h.dt)).length ≤ t.length :=
          (List.dropWhile_sublist _).length_le
        simp only [List.length_cons] at h1 h2
        exact ih f2' _ (by omega) (by omega)

theorem bars_rec_cons (sec : Int) (h : Tick) (t : List Tick) :
    bars_rec sec (h :: t) =
      barOfGroup (window_start sec h.dt) h
          (t.takeWhile (fun u => window_start sec u.dt == window_start sec h.dt)) ::
        bars_rec sec (t.dropWhile (fun u => window_start sec u.dt == window_start sec h.dt)) := by
  show bars_go sec (t.length + 1) (h :: t) = _
  simp only [bars_go]
  congr 1
  exact bars_go_fuel sec t.length _ _ ((List.dropWhile_sublist _).length_le) (le_refl _)

theorem takeWhile_mem_imp {α : Type} (p : α → Bool) :
    ∀ {l : List α} {a : α}, a ∈ l.takeWhile p → p a = true
  | [], a, h => absurd h (List.not_mem_nil a)
  | x :: xs, a, h => by
    cases hpx : p x with
    | true =>
      rw [List.takeWhile_cons_of_pos hpx] at h
      rcases List.mem_cons.mp h with rfl | h'
      · exact hpx
      · exact takeWhile_mem_imp p h'
    | false =>
      rw [List.takeWhile_cons_of_neg (by simp [hpx])] at h
      exact absurd h (List.not_mem_nil a)

theorem takeWhile_append_neg {α : Type} (p : α → Bool) {B : List α}
    (hB : ∀ b ∈ B, p b = false) :
    ∀ t : List α, (t ++ B).takeWhile p = t.takeWhile p
  | [] => by
    cases B with
    | nil => rfl
    | cons b bs => simp [List.takeWhile_cons, hB b (List.mem_cons_self b bs)]
  | x :: xs => by
    rw [List.cons_append, List.takeWhile_cons, List.takeWhile_cons]
    cases hpx : p x with
    | true => simp only [if_pos rfl, takeWhile_append_neg p hB xs]
    | false => simp

theorem dropWhile_append_neg {α : Type} (p : α → Bool) {B : List α}
    (hB : ∀ b ∈ B, p b = false) :
    ∀ t : List α, (t ++ B).dropWhile p = t.dropWhile p ++ B
  | [] => by
    cases B with
    | nil => rfl
    | cons b bs => simp [List.dropWhile_cons, hB b (List.mem_cons_self b bs)]
  | x :: xs => by
    rw [List.cons_append, List.dropWhile_cons, List.dropWhile_cons]
    cases hpx : p x with
    | true => simp [dropWhile_append_neg p hB xs]
    | false => simp

theorem dropWhile_head_false {α : Type} (p : α → Bool) :
    ∀ {l : List α} {x : α} {xs : List α}, l.dropWhile p = x :: xs → p x = false
  | [], x, xs, h => List.noConfusion h
  | a :: l, x, xs, h => by
    rw [List.dropWhile_cons] at h
    by_cases hpa : p a = true
    · rw [if_pos hpa] at h
      exact dropWhile_head_false p h
    · rw [if_neg hpa] at h
      injection h with h1 _
      rw [← h1]
      simpa using hpa

theorem le_qmax_left (a b : Rat) : a ≤ qmax a b := by
  unfold qmax
  split
  · assumption
  · exact le_refl a

theorem le_qmax_right (a b : Rat) : b ≤ qmax a b := by
  unfold qmax
  split
  · exact le_refl b
  · exact le_of_not_le (by assumption)

theorem qmax_eq_or (a b : Rat) : qmax a b = a ∨ qmax a b = b := by
  unfold qmax
  split
  · right; rfl
  · left; rfl

theorem qmin_le_left (a b : Rat) : qmin a b ≤ a := by
  unfold qmin
  split
  · assumption
  · exact le_refl a

theorem qmin_le_right (a b : Rat) : qmin a b ≤ b := by
  unfold qmin
  split
  · exact le_refl b
  · exact le_of_not_le (by assumption)

theorem qmin_eq_or (a b : Rat) : qmin a b = a ∨ qmin a b = b := by
  unfold qmin
  split
  · right; rfl
  · left; rfl

theorem foldl_qmax_spec :
    ∀ (t : List Tick) (a : Rat),
      (t.foldl (fun x u => qmax x u.mid) a = a ∨
        ∃ u ∈ t, t.foldl (fun x u => qmax x u.mid) a = u.mid) ∧
      a ≤ t.foldl (fun x u => qmax x u.mid) a ∧
      ∀ u ∈ t, u.mid ≤ t.foldl (fun x u => qmax x u.mid) a
  | [], a => ⟨Or.inl rfl, le_refl a, fun u hu => absurd hu (List.not_mem_nil u)⟩
  | v :: t, a => by
    simp only [List.foldl_cons]
    obtain ⟨h1, h2, h3⟩ := foldl_qmax_spec t (qmax a v.mid)
    refine ⟨?_, le_trans (le_qmax_left a v.mid) h2, ?_⟩
    · rcases h1 with h | ⟨u, hu, hres⟩
      · rcases qmax_eq_or a v.mid with hq | hq
        · left; rw [h, hq]
        · right; exact ⟨v, List.mem_cons_self v t, by rw [h, hq]⟩
      · right; exact ⟨u, List.mem_cons_of_mem v hu, hres⟩
    · intro u hu
      rcases List.mem_cons.mp hu with rfl | hu'
      · exact le_trans (le_qmax_right a u.mid) h2
      · exact h3 u hu'

theorem foldl_qmin_spec :
    ∀ (t : List Tick) (a : Rat),
      (t.foldl (fun x u => qmin x u.mid) a = a ∨
        ∃ u ∈ t, t.foldl (fun x u => qmin x u.mid) a = u.mid) ∧
      t.foldl (fun x u => qmin x u.mid) a ≤ a ∧
      ∀ u ∈ t, t.foldl (fun x u => qmin x u.mid) a ≤ u.mid
  | [], a => ⟨Or.inl rfl, le_refl a, fun u hu => absurd hu (List.not_mem_nil u)⟩
  | v :: t, a => by
    simp only [List.foldl_cons]
    obtain ⟨h1, h2, h3⟩ := foldl_qmin_spec t (qmin a v.mid)
    refine ⟨?_, le_trans h2 (qmin_le_left a v.mid), ?_⟩
    · rcases h1 with h | ⟨u, hu, hres⟩
      · rcases qmin_eq_or a v.mid with hq | hq
        · left; rw [h, hq]
        · right; exact ⟨v, List.mem_cons_self v t, by rw [h, hq]⟩
      · right; exact ⟨u, List.mem_cons_of_mem v hu, hres⟩
    · intro u hu
      rcases List.mem_cons.mp hu with rfl | hu'
      · exact le_trans h2 (qmin_le_right a u.mid)
      · exact h3 u hu'

theorem getLast?_cons_eq_getLastD {α : Type} :
    ∀ (l : List α) (a : α), (a :: l).getLast? = some (l.getLastD a)
  | [], a => rfl
  | b :: l, a => by
    rw [List.getLast?_cons_cons, getLast?_cons_eq_getLastD l b]
    have hld : (b :: l).getLastD a = l.getLastD b := by
      rw [List.getLastD_eq_getLast? a (b :: l), getLast?_cons_eq_getLastD l b]
      rfl
    rw [hld]

theorem bars_rec_append (sec : Int) :
    ∀ (n : Nat) (A B : List Tick), A.length ≤ n →
      (∀ a ∈ A, ∀ b ∈ B, window_start sec a.dt < window_start sec b.dt) →
      bars_rec sec (A ++ B) = bars_rec sec A ++ bars_rec sec B := by
  intro n
  induction n with
  | zero =>
    intro A B hA hAB
    cases A with
    | nil => rfl
    | cons h t => simp at hA
  | succ n ih =>
    intro A B hA hAB
    cases A with
    | nil => rfl
    | cons h t =>
      have hw : ∀ b ∈ B,
          (window_start sec b.dt == window_start sec h.dt) = false := by
        intro b hb
        simp only [beq_eq_false_iff_ne]
        exact ne_of_gt (hAB h (List.mem_cons_self h t) b hb)
      rw [List.cons_append, bars_rec_cons, bars_rec_cons,
        takeWhile_append_neg _ hw t, dropWhile_append_neg _ hw t, List.cons_append]
      congr 1
      apply ih
      · have hd : (t.dropWhile
            (fun u => window_start sec u.dt == window_start sec h.dt)).length ≤ t.length :=
          (List.dropWhile_sublist _).length_le
        simp only [List.length_cons] at hA
        omega
      · intro a ha b hb
        exact hAB a (List.mem_cons_of_mem h ((List.dropWhile_sublist _).subset ha)) b hb

theorem bars_rec_props (sec : Int) (hsec : 0 < sec) :
    ∀ (n : Nat) (l : List Tick), l.length ≤ n → List.Pairwise tickLE l →
      (bars_rec sec l).Pairwise (fun x y => x.ws < y.ws) ∧
      (∀ t ∈ l, ∃ b ∈ bars_rec sec l, b.ws = window_start sec t.dt) ∧
      (∀ b ∈ bars_rec sec l,
        ∃ h2 rest, l.filter (fun u => window_start sec u.dt == b.ws) = h2 :: rest ∧
          b = barOfGroup b.ws h2 rest ∧ b.ws = window_start sec h2.dt) := by
  intro n
  induction n with
  | zero =>
    intro l hl hsort
    cases l with
    | nil =>
      refine ⟨List.Pairwise.nil, ?_, ?_⟩
      · intro t ht
        exact absurd ht (List.not_mem_nil t)
      · intro b hb
        exact absurd hb (List.not_mem_nil b)
    | cons h t => simp at hl
  | succ n ih =>
    intro l hl hsort
    cases l with
    | nil =>
      refine ⟨List.Pairwise.nil, ?_, ?_⟩
      · intro t ht
        exact absurd ht (List.not_mem_nil t)
      · intro b hb
        exact absurd hb (List.not_mem_nil b)
    | cons h t =>
      obtain ⟨hh1, ht⟩ := List.pairwise_cons.mp hsort
      have hlen : (t.dropWhile
          (fun u => window_start sec u.dt == window_start sec h.dt)).length ≤ n := by
        have hd : (t.dropWhile
            (fun u => window_start sec u.dt == window_start sec h.dt)).length ≤ t.length :=
          (List.dropWhile_sublist _).length_le
        simp only [List.length_cons] at hl
        omega
      have hrest_sorted : (t.dropWhile
          (fun u => window_start sec u.dt == window_start sec h.dt)).Pairwise tickLE :=
        List.Pairwise.sublist (List.dropWhile_sublist _) ht
      have IH := ih _ hlen hrest_sorted
      have F2 : ∀ u ∈ t.takeWhile
          (fun u => window_start sec u.dt == window_start sec h.dt),
          window_start sec u.dt = window_start sec h.dt := by
        intro u hu
        exact beq_iff_eq.mp (takeWhile_mem_imp
          (fun (u : Tick) => window_start sec u.dt == window_start sec h.dt) hu)
      have F3 : ∀ u ∈ t.dropWhile
          (fun u => window_start sec u.dt == window_start sec h.dt),
          window_start sec h.dt < window_start sec u.dt := by
        intro u hu
        rcases hr : t.dropWhile
            (fun u => window_start sec u.dt == window_start sec h.dt) with _ | ⟨r, rs⟩
        · rw [hr] at hu
          exact absurd hu (List.not_mem_nil u)
        · rw [hr] at hu
          have hpr : (window_start sec r.dt == window_start sec h.dt) = false :=
            dropWhile_head_false
              (fun (u : Tick) => window_start sec u.dt == window_start sec h.dt) hr
          have hrdw : r ∈ t.dropWhile
              (fun u => window_start sec u.dt == window_start sec h.dt) := by
            rw [hr]
            exact List.mem_cons_self r rs
          have hrmem : r ∈ t := (List.dropWhile_sublist _).subset hrdw
          have hwr : window_start sec h.dt ≤ window_start sec r.dt :=
            window_start_mono hsec (hh1 r hrmem)
          have hwr2 : window_start sec h.dt < window_start sec r.dt :=
            lt_of_le_of_ne hwr (Ne.symm (beq_eq_false_iff_ne.mp hpr))
          rcases List.mem_cons.mp hu with rfl | hu'
          · exact hwr2
          · have hs2 := hr ▸ hrest_sorted
            have hru : tickLE r u := (List.pairwise_cons.mp hs2).1 u hu'
            have hmono := window_start_mono hsec hru
            omega
      have hbws_of_tail : ∀ b ∈ bars_rec sec (t.dropWhile
          (fun u => window_start sec u.dt == window_start sec h.dt)),
          window_start sec h.dt < b.ws := by
        intro b hb
        obtain ⟨h2, r2, hfil, _, hws⟩ := IH.2.2 b hb
        have hmem2 : h2 ∈ (t.dropWhile
            (fun u => window_start sec u.dt == window_start sec h.dt)).filter
            (fun u => window_start sec u.dt == b.ws) := by
          rw [hfil]
          exact List.mem_cons_self h2 r2
        have h2mem := List.mem_of_mem_filter hmem2
        rw [hws]
        exact F3 h2 h2mem
      refine ⟨?_, ?_, ?_⟩
      · rw [bars_rec_cons]
        exact List.Pairwise.cons (fun b hb => hbws_of_tail b hb) IH.1
      · intro u hu
        rw [bars_rec_cons]
        rcases List.mem_cons.mp hu with rfl | hu'
        · exact ⟨_, List.mem_cons_self _ _, rfl⟩
        · have hu2 : u ∈ t.takeWhile
              (fun u => window_start sec u.dt == window_start sec h.dt)
              ++ t.dropWhile
              (fun u => window_start sec u.dt == window_start sec h.dt) := by
            rw [List.takeWhile_append_dropWhile]
            exact hu'
          rcases List.mem_append.mp hu2 with hg | hrr
          · exact ⟨_, List.mem_cons_self _ _, (F2 u hg).symm⟩
          · obtain ⟨b, hb, hbws⟩ := IH.2.1 u hrr
            exact ⟨b, List.mem_cons_of_mem _ hb, hbws⟩
      · intro b hb
        rw [bars_rec_cons] at hb
        rcases List.mem_cons.mp hb with rfl | hb'
        · refine ⟨h, t.takeWhile
              (fun u => window_start sec u.dt == window_start sec h.dt), ?_, rfl, rfl⟩
          have hfh : (window_start sec h.dt == window_start sec h.dt) = true :=
            beq_self_eq_true _
          have hsplit : t.filter
              (fun u => window_start sec u.dt == window_start sec h.dt)
              = t.takeWhile (fun u => window_start sec u.dt == window_start sec h.dt) := by
            conv_lhs => rw [← List.takeWhile_append_dropWhile
              (fun u => window_start sec u.dt == window_start sec h.dt) t]
            rw [List.filter_append,
              List.filter_eq_self.mpr (fun u hu => takeWhile_mem_imp
                (fun (u : Tick) => window_start sec u.dt == window_start sec h.dt) hu)]
            rw [show (t.dropWhile
                (fun u => window_start sec u.dt == window_start sec h.dt)).filter
                (fun u => window_start sec u.dt == window_start sec h.dt) = [] from
              List.filter_eq_nil_iff.mpr (fun u hu hcontra => by
                have h3 := F3 u hu
                rw [beq_iff_eq.mp hcontra] at h3
                omega)]
            rw [List.append_nil]
          show (h :: t).filter
              (fun u => window_start sec u.dt == window_start sec h.dt)
              = h :: t.takeWhile
                (fun u => window_start sec u.dt == window_start sec h.dt)
          rw [show (h :: t).filter
              (fun u => window_start sec u.dt == window_start sec h.dt)
              = h :: t.filter
                (fun u => window_start sec u.dt == window_start sec h.dt) from by
            simp [List.filter_cons]]
          rw [hsplit]
        · obtain ⟨h2, r2, hfil, hbar, hws⟩ := IH.2.2 b hb'
          refine ⟨h2, r2, ?_, hbar, hws⟩
          have hbgt : window_start sec h.dt < b.ws := hbws_of_tail b hb'
          have hfh : (window_start sec h.dt == b.ws) = false := by
            simp only [beq_eq_false_iff_ne, ne_eq]
            exact ne_of_lt hbgt
          have hsplit : t.filter (fun u => window_start sec u.dt == b.ws)
              = (t.dropWhile
                  (fun u => window_start sec u.dt == window_start sec h.dt)).filter
                  (fun u => window_start sec u.dt == b.ws) := by
            conv_lhs => rw [← List.takeWhile_append_dropWhile
              (fun u => window_start sec u.dt == window_start sec h.dt) t]
            rw [List.filter_append]
            rw [show (t.takeWhile
                (fun u => window_start sec u.dt == window_start sec h.dt)).filter
                (fun u => window_start sec u.dt == b.ws) = [] from
              List.filter_eq_nil_iff.mpr (fun u hu hcontra => by
                have h2eq := F2 u hu
                rw [beq_iff_eq.mp hcontra] at h2eq
                omega)]
            rw [List.nil_append]
          rw [show (h :: t).filter (fun u => window_start sec u.dt == b.ws)
              = t.filter (fun u => window_start sec u.dt == b.ws) from by
            simp [List.filter_cons, hfh]]
          rw [hsplit, hfil]

theorem bars_from_ticks_eq_bars_rec {sec : Int} (hsec : 0 < sec) {l : List Tick}
    (hl : List.Pairwise tickLE l) : bars_from_ticks sec l = bars_rec sec l := by
  unfold bars_from_ticks
  apply sortBars_eq_of_sorted
  exact ((bars_rec_props sec hsec l.length l (le_refl _) hl).1).imp (fun hx => le_of_lt hx)

/-- C4: on a non-empty timestamp-sorted canonical tick set and a positive
whole-second window length, `bars_from_ticks` partitions the ticks into
left-closed, left-labeled, fixed-length windows and emits exactly one bar
per non-empty window (the output keys are strictly increasing, and every
tick's window is represented), with `open` the first and `close` the last
tick price of the window in timestamp order, `high`/`low` the
maximum/minimum price, and `volume` the tick count of the window; the bars
are sorted ascending by `window_start`. -/
theorem bars_from_ticks_contract (sec : Int) (hsec : 0 < sec)
    (ticks : List Tick) (hsorted : List.Pairwise tickLE ticks) (hne : ticks ≠ []) :
    bars_from_ticks sec ticks ≠ [] ∧
    (bars_from_ticks sec ticks).Pairwise (fun x y => x.ws < y.ws) ∧
    (∀ t ∈ ticks, ∃ b ∈ bars_from_ticks sec ticks, b.ws = window_start sec t.dt) ∧
    (∀ b ∈ bars_from_ticks sec ticks,
      ∃ g, g = ticks.filter
          (fun u => decide (b.ws ≤ u.dt) && decide (u.dt < b.ws + winUs sec)) ∧
        g ≠ [] ∧
        g.head?.map Tick.mid = some b.opn ∧
        g.getLast?.map Tick.mid = some b.close ∧
        b.high ∈ g.map Tick.mid ∧ (∀ q ∈ g.map Tick.mid, q ≤ b.high) ∧
        b.low ∈ g.map Tick.mid ∧ (∀ q ∈ g.map Tick.mid, b.low ≤ q) ∧
        b.volume = (g.length : Int)) := by
  have hbe := bars_from_ticks_eq_bars_rec hsec hsorted
  have P := bars_rec_props sec hsec ticks.length ticks (le_refl _) hsorted
  refine ⟨?_, ?_, ?_, ?_⟩
  · rw [hbe]
    cases ticks with
    | nil => exact absurd rfl hne
    | cons h t =>
      rw [bars_rec_cons]
      exact List.cons_ne_nil _ _
  · rw [hbe]
    exact P.1
  · intro t ht
    rw [hbe]
    exact P.2.1 t ht
  · intro b hb
    rw [hbe] at hb
    obtain ⟨h2, rest, hfil, hbar, hws⟩ := P.2.2 b hb
    have haligned : window_start sec b.ws = b.ws := by
      rw [hws]
      exact window_start_idem hsec _
    have hfeq : ticks.filter
        (fun u => decide (b.ws ≤ u.dt) && decide (u.dt < b.ws + winUs sec))
        = ticks.filter (fun u => window_start sec u.dt == b.ws) := by
      apply List.filter_congr
      intro u hu
      have hiff : window_start sec u.dt = b.ws ↔ b.ws ≤ u.dt ∧ u.dt < b.ws + winUs sec :=
        window_start_eq_iff hsec haligned
      rw [Bool.eq_iff_iff]
      simp only [Bool.and_eq_true, decide_eq_true_eq, beq_iff_eq]
      exact hiff.symm
    refine ⟨_, rfl, ?_, ?_, ?_, ?_, ?_, ?_, ?_, ?_⟩ <;> rw [hfeq, hfil]
    · exact List.cons_ne_nil _ _
    · rw [hbar]
      rfl
    · rw [hbar, getLast?_cons_eq_getLastD]
      rfl
    · rw [hbar]
      show (rest.foldl (fun a u => qmax a u.mid) h2.mid) ∈ (h2 :: rest).map Tick.mid
      obtain ⟨h1, _, _⟩ := foldl_qmax_spec rest h2.mid
      rcases h1 with hx | ⟨u, hu, hx⟩
      · rw [hx]
        exact List.mem_map_of_mem Tick.mid (List.mem_cons_self h2 rest)
      · rw [hx]
        exact List.mem_map_of_mem Tick.mid (List.mem_cons_of_mem h2 hu)
    · rw [hbar]
      intro q hq
      show q ≤ rest.foldl (fun a u => qmax a u.mid) h2.mid
      obtain ⟨_, h2le, h3le⟩ := foldl_qmax_spec rest h2.mid
      obtain ⟨u, hu, rfl⟩ := List.mem_map.mp hq
      rcases List.mem_cons.mp hu with rfl | hu'
      · exact h2le
      · exact h3le u hu'
    · rw [hbar]
      show (rest.foldl (fun a u => qmin a u.mid) h2.mid) ∈ (h2 :: rest).map Tick.mid
      obtain ⟨h1, _, _⟩ := foldl_qmin_spec rest h2.mid
      rcases h1 with hx | ⟨u, hu, hx⟩
      · rw [hx]
        exact List.mem_map_of_mem Tick.mid (List.mem_cons_self h2 rest)
      · rw [hx]
        exact List.mem_map_of_mem Tick.mid (List.mem_cons_of_mem h2 hu)
    · rw [hbar]
      intro q hq
      show rest.foldl (fun a u => qmin a u.mid) h2.mid ≤ q
      obtain ⟨_, h2le, h3le⟩ := foldl_qmin_spec rest h2.mid
      obtain ⟨u, hu, rfl⟩ := List.mem_map.mp hq
      rcases List.mem_cons.mp hu with rfl | hu'
      · exact h2le
      · exact h3le u hu'
    · rw [hbar]
      show (rest.length : Int) + 1 = ((h2 :: rest).length : Int)
      simp

/-- Witness for C4 on a one-tick input. -/
theorem bars_from_ticks_contract_witness :
    bars_from_ticks 60 [⟨0, 5⟩] ≠ [] :=
  (bars_from_ticks_contract 60 (by decide) [⟨0, 5⟩]
    (List.pairwise_singleton tickLE ⟨0, 5⟩) (by decide)).1

/-! ### C5: the rolling-buffer invariant -/

theorem foldl_max_int :
    ∀ (xs : List Int) (a : Int),
      a ≤ xs.foldl max a ∧ (∀ x ∈ xs, x ≤ xs.foldl max a) ∧
        (xs.foldl max a = a ∨ ∃ x ∈ xs, xs.foldl max a = x)
  | [], a => ⟨le_refl a, fun x hx => absurd hx (List.not_mem_nil x), Or.inl rfl⟩
  | v :: xs, a => by
    simp only [List.foldl_cons]
    obtain ⟨h1, h2, h3⟩ := foldl_max_int xs (max a v)
    refine ⟨le_trans (le_max_left a v) h1, ?_, ?_⟩
    · intro x hx
      rcases List.mem_cons.mp hx with rfl | hx'
      · exact le_trans (le_max_right a x) h1
      · exact h2 x hx'
    · rcases h3 with hx | ⟨x, hx, hfx⟩
      · rcases max_choice a v with hm | hm
        · left; rw [hx, hm]
        · right; exact ⟨v, List.mem_cons_self v xs, by rw [hx, hm]⟩
      · right; exact ⟨x, List.mem_cons_of_mem v hx, hfx⟩

theorem max?_spec (l : List Tick) (hne : l ≠ []) :
    ∃ M, (l.map Tick.dt).max? = some M ∧ (∃ t ∈ l, t.dt = M) ∧ ∀ t ∈ l, t.dt ≤ M := by
  cases l with
  | nil => exact absurd rfl hne
  | cons h t =>
    obtain ⟨h1, h2, h3⟩ := foldl_max_int (t.map Tick.dt) h.dt
    refine ⟨(t.map Tick.dt).foldl max h.dt, ?_, ?_, ?_⟩
    · rw [List.map_cons, List.max?_cons']
    · rcases h3 with hx | ⟨x, hx, hfx⟩
      · exact ⟨h, List.mem_cons_self h t, hx.symm⟩
      · obtain ⟨u, hu, rfl⟩ := List.mem_map.mp hx
        exact ⟨u, List.mem_cons_of_mem h hu, hfx.symm⟩
    · intro u hu
      rcases List.mem_cons.mp hu with rfl | hu'
      · exact h1
      · exact h2 u.dt (List.mem_map_of_mem Tick.dt hu')

theorem sortTicks_eq_nil_iff {l : List Tick} : sortTicks l = [] ↔ l = [] := by
  constructor
  · intro h
    have hp := List.perm_insertionSort tickLE l
    rw [show List.insertionSort tickLE l = sortTicks l from rfl, h] at hp
    exact (hp.nil_eq).symm
  · rintro rfl
    rfl

theorem ingest_buffer_eq (sec : Int) (st : GState) (ticks : List Tick) {M : Int}
    (hM : ((List.insertionSort tickLE (st.buffer ++ ticks)).map Tick.dt).max? = some M) :
    (ingest sec st ticks).buffer
      = (List.insertionSort tickLE (st.buffer ++ ticks)).filter
          (fun t => floor_dt_to_seconds M sec ≤ t.dt) := by
  simp only [ingest, hM]

theorem ingest_out_eq (sec : Int) (st : GState) (ticks : List Tick) {M : Int}
    (hM : ((List.insertionSort tickLE (st.buffer ++ ticks)).map Tick.dt).max? = some M) :
    (ingest sec st ticks).out
      = (if ((List.insertionSort tickLE (st.buffer ++ ticks)).filter
            (fun t => t.dt < floor_dt_to_seconds M sec)).isEmpty then st.out
        else if (bars_from_ticks sec
            ((List.insertionSort tickLE (st.buffer ++ ticks)).filter
              (fun t => t.dt < floor_dt_to_seconds M sec))).isEmpty then st.out
        else st.out ++ [bars_from_ticks sec
            ((List.insertionSort tickLE (st.buffer ++ ticks)).filter
              (fun t => t.dt < floor_dt_to_seconds M sec))]) := by
  simp only [ingest, hM]

/-- C5: after every ingest of a non-empty sanitized batch (sanitizing a
canonical batch is its sort), from any prior state of the running loop, the
buffer is sorted ascending by timestamp and every tick in it is at or above
the watermark of that ingest — the window start of the latest tick seen in
the combined frame — and in fact lies inside the single window containing
that maximum timestamp. -/
theorem buffer_invariant (sec : Int) (hsec : 0 < sec) (st : GState)
    (batch : List Tick) (hne : batch ≠ []) :
    List.Pairwise tickLE (ingest sec st (sortTicks batch)).buffer ∧
    ∃ M, ((List.insertionSort tickLE (st.buffer ++ sortTicks batch)).map Tick.dt).max?
        = some M ∧
      ∀ t ∈ (ingest sec st (sortTicks batch)).buffer,
        window_start sec M ≤ t.dt ∧ t.dt ≤ M ∧
          window_start sec t.dt = window_start sec M := by
  have hsort_ne : sortTicks batch ≠ [] := fun hcontra =>
    hne (sortTicks_eq_nil_iff.mp hcontra)
  have hcomb_ne : st.buffer ++ sortTicks batch ≠ [] := by
    intro hcontra
    exact hsort_ne (List.append_eq_nil.mp hcontra).2
  have hins_ne : List.insertionSort tickLE (st.buffer ++ sortTicks batch) ≠ [] := by
    intro hcontra
    have hp := List.perm_insertionSort tickLE (st.buffer ++ sortTicks batch)
    rw [hcontra] at hp
    exact hcomb_ne hp.nil_eq.symm
  obtain ⟨M, hM, _, hub⟩ := max?_spec _ hins_ne
  constructor
  · rw [ingest_buffer_eq sec st (sortTicks batch) hM]
    exact List.Pairwise.filter _ (List.sorted_insertionSort tickLE _)
  · refine ⟨M, hM, ?_⟩
    intro t ht
    rw [ingest_buffer_eq sec st (sortTicks batch) hM] at ht
    obtain ⟨htmem, htc⟩ := List.mem_filter.mp ht
    have hcut : floor_dt_to_seconds M sec ≤ t.dt := by simpa using htc
    have h1 : window_start sec M ≤ t.dt :=
      le_trans (window_start_le_floor_dt hsec M) hcut
    have h2 : t.dt ≤ M := hub t htmem
    exact ⟨h1, h2, window_start_eq_of_between hsec h1 h2⟩

/-- Witness for C5: a first ingest of a one-tick batch. -/
theorem buffer_invariant_witness :
    List.Pairwise tickLE (ingest 60 ⟨[], []⟩ (sortTicks [⟨90000000, 5⟩])).buffer ∧
    ∃ M, ((List.insertionSort tickLE (([] : List Tick) ++ sortTicks [⟨90000000, 5⟩])).map
        Tick.dt).max? = some M ∧
      ∀ t ∈ (ingest 60 ⟨[], []⟩ (sortTicks [⟨90000000, 5⟩])).buffer,
        window_start 60 M ≤ t.dt ∧ t.dt ≤ M ∧
          window_start 60 t.dt = window_start 60 M :=
  buffer_invariant 60 (by decide) ⟨[], []⟩ [⟨90000000, 5⟩] (by decide)

/-! ### C1: batch-size invariance -/

theorem orderedInsert_append {α : Type} (r : α → α → Prop) [DecidableRel r] (a : α) :
    ∀ (X Y : List α), (∀ y ∈ Y, r a y) →
      (X ++ Y).orderedInsert r a = (X.orderedInsert r a) ++ Y
  | [], Y, hY => by
    cases Y with
    | nil => rfl
    | cons y ys =>
      show (y :: ys).orderedInsert r a = [a] ++ (y :: ys)
      simp only [List.orderedInsert]
      rw [if_pos (hY y (List.mem_cons_self y ys))]
      rfl
  | x :: X, Y, hY => by
    show ((x :: (X ++ Y)).orderedInsert r a) = ((x :: X).orderedInsert r a) ++ Y
    simp only [List.orderedInsert]
    by_cases hax : r a x
    · rw [if_pos hax, if_pos hax]
      rfl
    · rw [if_neg hax, if_neg hax, List.cons_append]
      congr 1
      exact orderedInsert_append r a X Y hY

theorem insertionSort_append {α : Type} (r : α → α → Prop) [DecidableRel r] :
    ∀ (A B : List α), (∀ a ∈ A, ∀ b ∈ B, r a b) →
      List.insertionSort r (A ++ B) = List.insertionSort r A ++ List.insertionSort r B
  | [], B, _ => rfl
  | a :: A, B, h => by
    simp only [List.cons_append, List.insertionSort, List.append_eq]
    rw [insertionSort_append r A B (fun x hx y hy => h x (List.mem_cons_of_mem a hx) y hy)]
    exact orderedInsert_append r a _ _
      (fun y hy => h a (List.mem_cons_self a A) y ((List.mem_insertionSort r).mp hy))

theorem sortTicks_flatten (batches : List (List Tick))
    (hord : batches.Pairwise (fun b1 b2 => ∀ t ∈ b1, ∀ u ∈ b2, t.dt ≤ u.dt)) :
    sortTicks batches.flatten = (batches.map sortTicks).flatten := by
  induction batches with
  | nil => rfl
  | cons b rest ih =>
    obtain ⟨hb, hrest⟩ := List.pairwise_cons.mp hord
    show sortTicks ((b :: rest).flatten) = _
    rw [List.flatten_cons, List.map_cons, List.flatten_cons]
    have hcross : ∀ t ∈ b, ∀ u ∈ rest.flatten, tickLE t u := by
      intro t ht u hu
      obtain ⟨lb, hlb, hulb⟩ := List.mem_flatten.mp hu
      exact hb lb hlb t ht u hulb
    show List.insertionSort tickLE (b ++ rest.flatten) = _
    rw [insertionSort_append tickLE b rest.flatten hcross]
    rw [show List.insertionSort tickLE rest.flatten = sortTicks rest.flatten from rfl,
      ih hrest]
    rfl

theorem filter_lt_append_filter_ge {c : Int} :
    ∀ {l : List Tick}, List.Pairwise tickLE l →
      l.filter (fun t => t.dt < c) ++ l.filter (fun t => c ≤ t.dt) = l := by
  intro l
  induction l with
  | nil => intro _; rfl
  | cons x xs ih =>
    intro hs
    obtain ⟨hx, hxs⟩ := List.pairwise_cons.mp hs
    by_cases hc : x.dt < c
    · have h1 : List.filter (fun t => decide (t.dt < c)) (x :: xs)
          = x :: List.filter (fun t => decide (t.dt < c)) xs := by
        simp [List.filter_cons, hc]
      have h2 : List.filter (fun t => decide (c ≤ t.dt)) (x :: xs)
          = List.filter (fun t => decide (c ≤ t.dt)) xs := by
        simp [List.filter_cons, not_le.mpr hc]
      rw [h1, h2, List.cons_append, ih hxs]
    · have hge : c ≤ x.dt := not_lt.mp hc
      have h1 : List.filter (fun t => decide (t.dt < c)) (x :: xs) = [] := by
        rw [List.filter_eq_nil_iff]
        intro u hu hcontra
        have hud : u.dt < c := by simpa using hcontra
        rcases List.mem_cons.mp hu with rfl | hu'
        · omega
        · have := hx u hu'
          have : c ≤ u.dt := le_trans hge this
          omega
      have h2 : List.filter (fun t => decide (c ≤ t.dt)) (x :: xs) = x :: xs := by
        rw [List.filter_eq_self]
        intro u hu
        rcases List.mem_cons.mp hu with rfl | hu'
        · simpa using hge
        · have := le_trans hge (hx u hu')
          simpa using this
      rw [h1, h2]
      rfl

theorem dedupKeepLast_eq_self {l : List Bar}
    (h : l.Pairwise (fun a b => a.ws ≠ b.ws)) : dedupKeepLast l = l := by
  induction l with
  | nil => rfl
  | cons b xs ih =>
    obtain ⟨hb, hxs⟩ := List.pairwise_cons.mp h
    have hany : (dedupKeepLast xs).any (fun c => c.ws == b.ws) = false := by
      rw [dedupKeepLast_any]
      rw [List.any_eq_false]
      intro c hc hcontra
      exact (hb c hc) (beq_iff_eq.mp hcontra).symm
    rw [dedupKeepLast_cons, hany]
    simp only [Bool.false_eq_true, if_false]
    rw [ih hxs]

theorem merge_one_of_sorted_keys (frames : List (List Bar))
    (h : frames.flatten.Pairwise (fun a b => a.ws < b.ws)) :
    merge_one frames = frames.flatten := by
  have hsorted : List.Sorted barLE frames.flatten := h.imp (fun hab => le_of_lt hab)
  unfold merge_one
  rw [sortBars_eq_of_sorted hsorted,
    dedupKeepLast_eq_self (h.imp (fun hab => ne_of_lt hab))]
  exact sortBars_eq_of_sorted hsorted

theorem filter_ge_ge {W0 W : Int} (h : W0 ≤ W) (l : List Tick) :
    (l.filter (fun t => W0 ≤ t.dt)).filter (fun t => W ≤ t.dt)
      = l.filter (fun t => W ≤ t.dt) := by
  rw [List.filter_filter]
  apply List.filter_congr
  intro u _
  rw [Bool.eq_iff_iff]
  simp only [Bool.and_eq_true, decide_eq_true_eq]
  omega

theorem filter_lt_lt {W0 W : Int} (h : W0 ≤ W) (l : List Tick) :
    (l.filter (fun t => t.dt < W)).filter (fun t => t.dt < W0)
      = l.filter (fun t => t.dt < W0) := by
  rw [List.filter_filter]
  apply List.filter_congr
  intro u _
  rw [Bool.eq_iff_iff]
  simp only [Bool.and_eq_true, decide_eq_true_eq]
  omega

theorem filter_lt_ge_comm (c d : Int) (l : List Tick) :
    (l.filter (fun t => t.dt < c)).filter (fun t => d ≤ t.dt)
      = (l.filter (fun t => d ≤ t.dt)).filter (fun t => t.dt < c) := by
  rw [List.filter_filter, List.filter_filter]
  apply List.filter_congr
  intro u _
  rw [Bool.eq_iff_iff]
  simp only [Bool.and_eq_true, decide_eq_true_eq]
  exact and_comm

theorem bars_rec_ne_nil (sec : Int) {l : List Tick} (h : l ≠ []) :
    bars_rec sec l ≠ [] := by
  cases l with
  | nil => exact absurd rfl h
  | cons x xs =>
    rw [bars_rec_cons]
    exact List.cons_ne_nil _ _

theorem ingest_step (sec : Int) (hsec : 0 < sec) (P B : List Tick) (st : GState) (M0 : Int)
    (hPs : List.Pairwise tickLE P) (hPnn : ∀ t ∈ P, 0 ≤ t.dt)
    (hBs : List.Pairwise tickLE B) (hBnn : ∀ u ∈ B, 0 ≤ u.dt) (hBne : B ≠ [])
    (hPB : ∀ t ∈ P, ∀ u ∈ B, t.dt ≤ u.dt)
    (hM0r : P ≠ [] → ∃ t ∈ P, t.dt = M0)
    (hbuf : st.buffer = P.filter (fun t => window_start sec M0 ≤ t.dt))
    (hout : st.out.flatten = bars_rec sec (P.filter (fun t => t.dt < window_start sec M0))) :
    ∃ M, (∃ t ∈ P ++ B, t.dt = M) ∧ (∀ t ∈ P ++ B, t.dt ≤ M) ∧
      (ingest sec st B).buffer = (P ++ B).filter (fun t => window_start sec M ≤ t.dt) ∧
      (ingest sec st B).out.flatten
        = bars_rec sec ((P ++ B).filter (fun t => t.dt < window_start sec M)) := by
  have hW0al : window_start sec (window_start sec M0) = window_start sec M0 :=
    window_start_idem hsec M0
  have hbufsorted : List.Pairwise tickLE st.buffer := by
    rw [hbuf]
    exact List.Pairwise.filter _ hPs
  have hbufsub : ∀ t ∈ st.buffer, t ∈ P := by
    rw [hbuf]
    exact fun t ht => List.mem_of_mem_filter ht
  have hconc_sorted : List.Pairwise tickLE (st.buffer ++ B) := by
    rw [List.pairwise_append]
    exact ⟨hbufsorted, hBs, fun t ht u hu => hPB t (hbufsub t ht) u hu⟩
  have hcomb : List.insertionSort tickLE (st.buffer ++ B) = st.buffer ++ B :=
    List.Sorted.insertionSort_eq hconc_sorted
  have hcne : st.buffer ++ B ≠ [] := fun hc => hBne (List.append_eq_nil.mp hc).2
  obtain ⟨M, hMmax, ⟨tM, htM, htMd⟩, hMub⟩ := max?_spec (st.buffer ++ B) hcne
  have hMmax' : ((List.insertionSort tickLE (st.buffer ++ B)).map Tick.dt).max? = some M := by
    rw [hcomb]
    exact hMmax
  have hMnn : 0 ≤ M := by
    rcases List.mem_append.mp htM with h | h
    · exact htMd ▸ hPnn tM (hbufsub tM h)
    · exact htMd ▸ hBnn tM h
  have hMcut : floor_dt_to_seconds M sec = window_start sec M :=
    floor_dt_eq_window_start hMnn hsec
  have hMmemPB : ∃ t ∈ P ++ B, t.dt = M := by
    rcases List.mem_append.mp htM with h | h
    · exact ⟨tM, List.mem_append.mpr (Or.inl (hbufsub tM h)), htMd⟩
    · exact ⟨tM, List.mem_append.mpr (Or.inr h), htMd⟩
  obtain ⟨u0, hu0⟩ : ∃ u, u ∈ B := by
    cases B with
    | nil => exact absurd rfl hBne
    | cons x xs => exact ⟨x, List.mem_cons_self x xs⟩
  have hu0M : u0.dt ≤ M := hMub u0 (List.mem_append.mpr (Or.inr hu0))
  have hMubPB : ∀ t ∈ P ++ B, t.dt ≤ M := by
    intro t ht
    rcases List.mem_append.mp ht with h | h
    · exact le_trans (hPB t h u0 hu0) hu0M
    · exact hMub t (List.mem_append.mpr (Or.inr h))
  have hM0M : P ≠ [] → window_start sec M0 ≤ window_start sec M := by
    intro hP
    obtain ⟨t0, ht0, ht0d⟩ := hM0r hP
    have hle : M0 ≤ M := ht0d ▸ le_trans (hPB t0 ht0 u0 hu0) hu0M
    exact window_start_mono hsec hle
  have hbuffer : (ingest sec st B).buffer
      = (P ++ B).filter (fun t => window_start sec M ≤ t.dt) := by
    rw [ingest_buffer_eq sec st B hMmax', hcomb, hMcut, List.filter_append, hbuf,
      List.filter_append]
    congr 1
    by_cases hP : P = []
    · subst hP
      rfl
    · exact filter_ge_ge (hM0M hP) P
  have hPWsplit : P.filter (fun t => t.dt < window_start sec M)
      = P.filter (fun t => t.dt < window_start sec M0)
        ++ (P.filter (fun t => window_start sec M0 ≤ t.dt)).filter
            (fun t => t.dt < window_start sec M) := by
    by_cases hP : P = []
    · subst hP
      rfl
    · have h1 : (P.filter (fun t => t.dt < window_start sec M)).filter
            (fun t => t.dt < window_start sec M0)
          ++ (P.filter (fun t => t.dt < window_start sec M)).filter
            (fun t => window_start sec M0 ≤ t.dt)
          = P.filter (fun t => t.dt < window_start sec M) :=
        filter_lt_append_filter_ge (List.Pairwise.filter _ hPs)
      rw [← h1, filter_lt_lt (hM0M hP) P, filter_lt_ge_comm]
  have hPsplit : (P ++ B).filter (fun t => t.dt < window_start sec M)
      = P.filter (fun t => t.dt < window_start sec M0)
        ++ ((P.filter (fun t => window_start sec M0 ≤ t.dt)).filter
              (fun t => t.dt < window_start sec M)
            ++ B.filter (fun t => t.dt < window_start sec M)) := by
    rw [List.filter_append, hPWsplit, List.append_assoc]
  have hcrossAF : ∀ a ∈ P.filter (fun t => t.dt < window_start sec M0),
      ∀ f ∈ (P.filter (fun t => window_start sec M0 ≤ t.dt)).filter
            (fun t => t.dt < window_start sec M)
          ++ B.filter (fun t => t.dt < window_start sec M),
      window_start sec a.dt < window_start sec f.dt := by
    intro a ha f hf
    have hPne : P ≠ [] := by
      intro hc
      subst hc
      exact absurd ha (List.not_mem_nil a)
    have halt : a.dt < window_start sec M0 := by
      simpa using (List.mem_filter.mp ha).2
    have haw : window_start sec a.dt < window_start sec M0 :=
      window_start_lt_of_lt hsec halt
    have hfw : window_start sec M0 ≤ window_start sec f.dt := by
      rcases List.mem_append.mp hf with h | h
      · have hge : window_start sec M0 ≤ f.dt := by
          simpa using (List.mem_filter.mp (List.mem_of_mem_filter h)).2
        exact le_window_start_of_le hsec hW0al hge
      · obtain ⟨t0, ht0, ht0d⟩ := hM0r hPne
        have hfB := List.mem_of_mem_filter h
        have hge : window_start sec M0 ≤ f.dt :=
          le_trans (window_start_le hsec M0) (ht0d ▸ hPB t0 ht0 f hfB)
        exact le_window_start_of_le hsec hW0al hge
    omega
  have hXsorted : List.Pairwise tickLE
      ((P.filter (fun t => window_start sec M0 ≤ t.dt)).filter
          (fun t => t.dt < window_start sec M)
        ++ B.filter (fun t => t.dt < window_start sec M)) := by
    rw [← List.filter_append, ← hbuf]
    exact List.Pairwise.filter _ hconc_sorted
  have hout1 : (ingest sec st B).out.flatten
      = bars_rec sec ((P ++ B).filter (fun t => t.dt < window_start sec M)) := by
    rw [ingest_out_eq sec st B hMmax', hcomb, hMcut, hbuf, List.filter_append, hPsplit]
    rw [bars_rec_append sec (P.filter
        (fun t => t.dt < window_start sec M0)).length _ _ (le_refl _) hcrossAF]
    by_cases hFe : ((P.filter (fun t => window_start sec M0 ≤ t.dt)).filter
          (fun t => t.dt < window_start sec M)
        ++ B.filter (fun t => t.dt < window_start sec M)).isEmpty
    · rw [if_pos hFe]
      rw [List.isEmpty_iff.mp hFe]
      show st.out.flatten
        = bars_rec sec (P.filter (fun t => t.dt < window_start sec M0)) ++ bars_rec sec []
      rw [show bars_rec sec [] = [] from rfl, List.append_nil]
      exact hout
    · rw [if_neg hFe]
      have hXne : (P.filter (fun t => window_start sec M0 ≤ t.dt)).filter
            (fun t => t.dt < window_start sec M)
          ++ B.filter (fun t => t.dt < window_start sec M) ≠ [] := by
        intro hc
        rw [hc] at hFe
        exact hFe rfl
      have hXbar : bars_from_ticks sec
          ((P.filter (fun t => window_start sec M0 ≤ t.dt)).filter
              (fun t => t.dt < window_start sec M)
            ++ B.filter (fun t => t.dt < window_start sec M))
          = bars_rec sec
          ((P.filter (fun t => window_start sec M0 ≤ t.dt)).filter
              (fun t => t.dt < window_start sec M)
            ++ B.filter (fun t => t.dt < window_start sec M)) :=
        bars_from_ticks_eq_bars_rec hsec hXsorted
      rw [hXbar]
      rw [if_neg (by
        intro hc
        exact bars_rec_ne_nil sec hXne (List.isEmpty_iff.mp hc))]
      rw [List.flatten_append, hout]
      simp
  exact ⟨M, hMmemPB, hMubPB, hbuffer, hout1⟩

theorem loop_inv (sec : Int) (hsec : 0 < sec) :
    ∀ (batches : List (List Tick)) (st : GState) (P : List Tick),
      List.Pairwise tickLE P →
      (∀ t ∈ P, 0 ≤ t.dt) →
      (∀ b ∈ batches, ∀ u ∈ b, 0 ≤ u.dt) →
      (∀ b ∈ batches, ∀ t ∈ P, ∀ u ∈ b, t.dt ≤ u.dt) →
      List.Pairwise (fun b1 b2 => ∀ t ∈ b1, ∀ u ∈ b2, t.dt ≤ u.dt) batches →
      ((P = [] ∧ st = ⟨[], []⟩) ∨
        (∃ M, (∃ t ∈ P, t.dt = M) ∧ (∀ t ∈ P, t.dt ≤ M) ∧
          st.buffer = P.filter (fun t => window_start sec M ≤ t.dt) ∧
          st.out.flatten = bars_rec sec (P.filter (fun t => t.dt < window_start sec M)))) →
      List.Pairwise tickLE (P ++ (batches.map sortTicks).flatten) ∧
      (∀ t ∈ P ++ (batches.map sortTicks).flatten, 0 ≤ t.dt) ∧
      ((P ++ (batches.map sortTicks).flatten = [] ∧
          batches.foldl (fun st b =>
            let ticks := sortTicks b
            if ticks.isEmpty then st else ingest sec st ticks) st = ⟨[], []⟩) ∨
        (∃ M, (∃ t ∈ P ++ (batches.map sortTicks).flatten, t.dt = M) ∧
          (∀ t ∈ P ++ (batches.map sortTicks).flatten, t.dt ≤ M) ∧
          (batches.foldl (fun st b =>
            let ticks := sortTicks b
            if ticks.isEmpty then st else ingest sec st ticks) st).buffer
            = (P ++ (batches.map sortTicks).flatten).filter
                (fun t => window_start sec M ≤ t.dt) ∧
          (batches.foldl (fun st b =>
            let ticks := sortTicks b
            if ticks.isEmpty then st else ingest sec st ticks) st).out.flatten
            = bars_rec sec ((P ++ (batches.map sortTicks).flatten).filter
                (fun t => t.dt < window_start sec M)))) := by
  intro batches
  induction batches with
  | nil =>
    intro st P hPs hPnn _ _ _ hinv
    simp only [List.map_nil, List.flatten_nil, List.append_nil, List.foldl_nil]
    exact ⟨hPs, hPnn, hinv⟩
  | cons b rest ih =>
    intro st P hPs hPnn hnn hcross hord hinv
    obtain ⟨hordb, hordrest⟩ := List.pairwise_cons.mp hord
    simp only [List.map_cons, List.flatten_cons, List.foldl_cons]
    by_cases hbe : (sortTicks b).isEmpty
    · rw [if_pos hbe, List.isEmpty_iff.mp hbe, List.nil_append]
      exact ih st P hPs hPnn
        (fun bb hbb => hnn bb (List.mem_cons_of_mem b hbb))
        (fun bb hbb => hcross bb (List.mem_cons_of_mem b hbb))
        hordrest hinv
    · have hBne : sortTicks b ≠ [] := fun hc => hbe (by rw [hc]; rfl)
      rw [if_neg hbe]
      have hBs : List.Pairwise tickLE (sortTicks b) := List.sorted_insertionSort tickLE b
      have hBmem : ∀ u : Tick, u ∈ sortTicks b ↔ u ∈ b := fun u =>
        List.mem_insertionSort tickLE
      have hBnn : ∀ u ∈ sortTicks b, 0 ≤ u.dt := fun u hu =>
        hnn b (List.mem_cons_self b rest) u ((hBmem u).mp hu)
      have hPB : ∀ t ∈ P, ∀ u ∈ sortTicks b, t.dt ≤ u.dt := fun t ht u hu =>
        hcross b (List.mem_cons_self b rest) t ht u ((hBmem u).mp hu)
      have hM0pack : ∃ M0, (P ≠ [] → ∃ t ∈ P, t.dt = M0) ∧
          st.buffer = P.filter (fun t => window_start sec M0 ≤ t.dt) ∧
          st.out.flatten
            = bars_rec sec (P.filter (fun t => t.dt < window_start sec M0)) := by
        rcases hinv with ⟨hPnil, hstnil⟩ | ⟨M0, hr, _, hbuf, hout⟩
        · subst hPnil
          refine ⟨0, fun hc => absurd rfl hc, ?_, ?_⟩
          · rw [hstnil]
            rfl
          · rw [hstnil]
            rfl
        · exact ⟨M0, fun _ => hr, hbuf, hout⟩
      obtain ⟨M0, hM0r, hbuf, hout⟩ := hM0pack
      obtain ⟨M, hMr, hMub, hbuf1, hout1⟩ := ingest_step sec hsec P (sortTicks b) st M0
        hPs hPnn hBs hBnn hBne hPB hM0r hbuf hout
      have hPmids : List.Pairwise tickLE (P ++ sortTicks b) := by
        rw [List.pairwise_append]
        exact ⟨hPs, hBs, hPB⟩
      have hPmidnn : ∀ t ∈ P ++ sortTicks b, 0 ≤ t.dt := by
        intro t ht
        rcases List.mem_append.mp ht with h | h
        · exact hPnn t h
        · exact hBnn t h
      have hcross2 : ∀ bb ∈ rest, ∀ t ∈ P ++ sortTicks b, ∀ u ∈ bb, t.dt ≤ u.dt := by
        intro bb hbb t ht u hu
        rcases List.mem_append.mp ht with h | h
        · exact hcross bb (List.mem_cons_of_mem b hbb) t h u hu
        · exact hordb bb hbb t ((hBmem t).mp h) u hu
      have hmain := ih (ingest sec st (sortTicks b)) (P ++ sortTicks b) hPmids hPmidnn
        (fun bb hbb => hnn bb (List.mem_cons_of_mem b hbb))
        hcross2 hordrest (Or.inr ⟨M, hMr, hMub, hbuf1, hout1⟩)
      rw [← List.append_assoc]
      exact hmain

/-- C1 counterexample: two singleton batches of pre-epoch ticks half and
0.3 seconds before 1970, in timestamp order with no intra-batch disorder.
Because `floor_dt_to_seconds` truncates the (negative, fractional) epoch
seconds toward zero, the first ingest finalizes the window of the first
tick early; the second tick then lands in the already-finalized window, a
second bar with the same key is produced, and the keep-last dedup discards
the first — so the streamed series (volume 1) differs from reducing the
sorted whole (volume 2). -/
theorem batch_invariance_counterexample :
    ((-500000 : Int) ≤ -300000) ∧
    merge_one (loop_through_files 60 [[⟨-500000, 1⟩], [⟨-300000, 2⟩]]).out
      = [⟨-60000000, 2, 2, 2, 2, 1⟩] ∧
    bars_from_ticks 60 (sortTicks ([[⟨-500000, (1 : Rat)⟩], [⟨-300000, 2⟩]] :
        List (List Tick)).flatten)
      = [⟨-60000000, 1, 2, 1, 2, 2⟩] ∧
    merge_one (loop_through_files 60 [[⟨-500000, 1⟩], [⟨-300000, 2⟩]]).out
      ≠ bars_from_ticks 60 (sortTicks ([[⟨-500000, (1 : Rat)⟩], [⟨-300000, 2⟩]] :
          List (List Tick)).flatten) :=
  ⟨by decide, by decide, by decide, by decide⟩

/-- C1 (amended): for every tick set whose timestamps are at or after the
Unix epoch, split into any sequence of batches that preserves timestamp
order across batch boundaries (no tick of an earlier batch after any tick
of a later batch; intra-batch order is arbitrary), running the streaming
pipeline — `loop_through_files` over the batches, including the
end-of-input flush, then the merge/dedup stage — yields exactly the bar
series obtained by sorting the whole set once and reducing it directly
with `bars_from_ticks`.  (For pre-epoch timestamps the watermark truncation
can finalize a window early; see the counterexample.) -/
theorem batch_size_invariance (sec : Int) (hsec : 0 < sec)
    (batches : List (List Tick))
    (hnn : ∀ b ∈ batches, ∀ u ∈ b, 0 ≤ u.dt)
    (hord : List.Pairwise (fun b1 b2 => ∀ t ∈ b1, ∀ u ∈ b2, t.dt ≤ u.dt) batches) :
    merge_one (loop_through_files sec batches).out
      = bars_from_ticks sec (sortTicks batches.flatten) := by
  obtain ⟨hP's, hP'nn, hinv'⟩ := loop_inv sec hsec batches ⟨[], []⟩ [] List.Pairwise.nil
    (fun t ht => absurd ht (List.not_mem_nil t)) hnn
    (fun b _ t ht => absurd ht (List.not_mem_nil t))
    hord (Or.inl ⟨rfl, rfl⟩)
  rw [List.nil_append] at hP's hP'nn hinv'
  have hRHS : bars_from_ticks sec (sortTicks batches.flatten)
      = bars_rec sec ((batches.map sortTicks).flatten) := by
    rw [sortTicks_flatten batches hord]
    exact bars_from_ticks_eq_bars_rec hsec hP's
  rcases hinv' with ⟨hPnil, hstfin⟩ | ⟨M, ⟨tM, htM, htMd⟩, hMub, hbuf, hout⟩
  · have hloop : loop_through_files sec batches = (⟨[], []⟩ : GState) := by
      simp only [loop_through_files]
      rw [hstfin]
      rfl
    rw [hloop, hRHS, hPnil]
    rfl
  · have hWal : window_start sec (window_start sec M) = window_start sec M :=
      window_start_idem hsec M
    have hbufne : (batches.foldl (fun st b =>
        let ticks := sortTicks b
        if ticks.isEmpty then st else ingest sec st ticks) ⟨[], []⟩).buffer ≠ [] := by
      rw [hbuf]
      intro hc
      have hWle : window_start sec M ≤ tM.dt := htMd ▸ window_start_le hsec M
      have hmem : tM ∈ ((batches.map sortTicks).flatten).filter
          (fun t => window_start sec M ≤ t.dt) :=
        List.mem_filter.mpr ⟨htM, by simpa using hWle⟩
      rw [hc] at hmem
      exact absurd hmem (List.not_mem_nil tM)
    have hbufsorted : List.Pairwise tickLE (batches.foldl (fun st b =>
        let ticks := sortTicks b
        if ticks.isEmpty then st else ingest sec st ticks) ⟨[], []⟩).buffer := by
      rw [hbuf]
      exact List.Pairwise.filter _ hP's
    have hcrossWF : ∀ a ∈ ((batches.map sortTicks).flatten).filter
          (fun t => t.dt < window_start sec M),
        ∀ f ∈ ((batches.map sortTicks).flatten).filter
          (fun t => window_start sec M ≤ t.dt),
        window_start sec a.dt < window_start sec f.dt := by
      intro a ha f hf
      have halt : a.dt < window_start sec M := by
        simpa using (List.mem_filter.mp ha).2
      have hfge : window_start sec M ≤ f.dt := by
        simpa using (List.mem_filter.mp hf).2
      have h1 := window_start_lt_of_lt hsec halt
      have h2 := le_window_start_of_le hsec hWal hfge
      omega
    have hflat : ((batches.foldl (fun st b =>
          let ticks := sortTicks b
          if ticks.isEmpty then st else ingest sec st ticks) ⟨[], []⟩).out
        ++ [bars_rec sec ((batches.foldl (fun st b =>
          let ticks := sortTicks b
          if ticks.isEmpty then st else ingest sec st ticks) ⟨[], []⟩).buffer)]).flatten
        = bars_rec sec ((batches.map sortTicks).flatten) := by
      rw [List.flatten_append, hout, hbuf]
      rw [show ([bars_rec sec (((batches.map sortTicks).flatten).filter
          (fun t => window_start sec M ≤ t.dt))] :
          List (List Bar)).flatten
        = bars_rec sec (((batches.map sortTicks).flatten).filter
          (fun t => window_start sec M ≤ t.dt)) from by simp]
      rw [← bars_rec_append sec (((batches.map sortTicks).flatten).filter
          (fun t => t.dt < window_start sec M)).length _ _ (le_refl _) hcrossWF]
      rw [filter_lt_append_filter_ge hP's]
    have hbarbuf : bars_from_ticks sec (batches.foldl (fun st b =>
        let ticks := sortTicks b
        if ticks.isEmpty then st else ingest sec st ticks) ⟨[], []⟩).buffer
        = bars_rec sec (batches.foldl (fun st b =>
        let ticks := sortTicks b
        if ticks.isEmpty then st else ingest sec st ticks) ⟨[], []⟩).buffer :=
      bars_from_ticks_eq_bars_rec hsec hbufsorted
    simp only [loop_through_files]
    rw [if_neg (fun hc => hbufne (List.isEmpty_iff.mp hc))]
    rw [hbarbuf]
    rw [if_neg (fun hc => bars_rec_ne_nil sec hbufne (List.isEmpty_iff.mp hc))]
    show merge_one ((batches.foldl (fun st b =>
        let ticks := sortTicks b
        if ticks.isEmpty then st else ingest sec st ticks) ⟨[], []⟩).out
      ++ [bars_rec sec ((batches.foldl (fun st b =>
        let ticks := sortTicks b
        if ticks.isEmpty then st else ingest sec st ticks) ⟨[], []⟩).buffer)]) = _
    have hkeys : ((batches.foldl (fun st b =>
          let ticks := sortTicks b
          if ticks.isEmpty then st else ingest sec st ticks) ⟨[], []⟩).out
        ++ [bars_rec sec ((batches.foldl (fun st b =>
          let ticks := sortTicks b
          if ticks.isEmpty then st else ingest sec st ticks) ⟨[], []⟩).buffer)]).flatten.Pairwise
        (fun x y => x.ws < y.ws) := by
      rw [hflat]
      exact (bars_rec_props sec hsec ((batches.map sortTicks).flatten).length _
        (le_refl _) hP's).1
    rw [merge_one_of_sorted_keys _ hkeys, hflat, hRHS]

/-- Witness for the amended C1: two ordered batches, one per minute window. -/
theorem batch_size_invariance_witness :
    merge_one (loop_through_files 60 [[⟨32400100000, 100⟩], [⟨32465000000, 102⟩]]).out
      = bars_from_ticks 60 (sortTicks ([[⟨32400100000, (100 : Rat)⟩],
          [⟨32465000000, 102⟩]] : List (List Tick)).flatten) :=
  batch_size_invariance 60 (by decide) [[⟨32400100000, 100⟩], [⟨32465000000, 102⟩]]
    (by decide) (by decide)
